import Mathlib

/-!
Verification of `compare_allele_frequencies.py` (radseq_utils).

The script aggregates per-clade allele-frequency tables into an in-memory
table keyed by (chromosome, position) and runs five classifiers over it.
We embed the aggregation and the classifiers shallowly:

* Python `float` values are modelled by `PFloat`: either an exact rational
  or the NaN sentinel (the script never produces infinities on the data it
  manipulates; NaN enters through `float("-nan")` cells of `.frq` files).
  Comparisons involving NaN are `false`, and arithmetic propagates NaN,
  as in IEEE/Python semantics.
* Python `dict`s (insertion-ordered, unique keys) are modelled by
  association lists; `d[k] = v` is `dinsert` (update in place or append),
  lookup is `alookup` (first match).  Theorems that depend on key
  uniqueness carry `NodupKeys` hypotheses, which hold for any list
  representing an actual `dict`.
* Each classifier iterates over the table's loci and adds at most one
  entry per locus to its output dict, so it is embedded as a `filterMap`
  over the table.  (`identify_fixed_alleles` uses `setdefault(..).append`,
  but since the loci of a `dict` are unique, all appends for a locus
  happen during that locus's iteration, which is the same per-locus
  grouping.)
-/

set_option allowUnsafeReducibility true
attribute [local semireducible] Rat.add Rat.sub Rat.mul Rat.inv Rat.div
set_option synthInstance.maxSize 1024

/-- Python float: an exact rational, or the NaN sentinel. -/
inductive PFloat where
  | nan : PFloat
  | val : ℚ → PFloat
deriving DecidableEq, Repr

namespace PFloat

/-- Model of `math.isnan`. -/
def isnan : PFloat → Bool
  | nan => true
  | val _ => false

/-- Python `x <= y` on floats: any comparison with NaN is false. -/
def ple : PFloat → PFloat → Bool
  | val a, val b => decide (a ≤ b)
  | _, _ => false

/-- Python `x < y` on floats: any comparison with NaN is false. -/
def plt : PFloat → PFloat → Bool
  | val a, val b => decide (a < b)
  | _, _ => false

/-- Python `x + y` on floats: NaN propagates. -/
def padd : PFloat → PFloat → PFloat
  | val a, val b => val (a + b)
  | _, _ => nan

/-- Python `x - y` on floats: NaN propagates. -/
def psub : PFloat → PFloat → PFloat
  | val a, val b => val (a - b)
  | _, _ => nan

/-- The rational underlying a non-NaN float (0 as an unreachable default). -/
def toRatD : PFloat → ℚ
  | nan => 0
  | val q => q

end PFloat

/-- Python `max(x, *xs)`: keep the current maximum, replace it when a later
item compares strictly greater (so comparisons against NaN never replace, and
ties keep the earlier item). -/
def pymax1 (x : PFloat) (xs : List PFloat) : PFloat :=
  xs.foldl (fun acc y => if PFloat.plt acc y then y else acc) x

/-- Python `min(x, *xs)`: replace when a later item compares strictly less. -/
def pymin1 (x : PFloat) (xs : List PFloat) : PFloat :=
  xs.foldl (fun acc y => if PFloat.plt y acc then y else acc) x

/-- Python `max`/`min` over a possibly-empty list; Python raises `ValueError`
on an empty sequence, modelled by the NaN default (all uses are guarded). -/
def pymaxD : List PFloat → PFloat
  | [] => PFloat.nan
  | x :: xs => pymax1 x xs

/-- See `pymaxD`. -/
def pyminD : List PFloat → PFloat
  | [] => PFloat.nan
  | x :: xs => pymin1 x xs

/-- Association-list model of Python `d[k] = v`: overwrite the value at the
first occurrence of `k`, keeping its position, else append. -/
def dinsert {κ α : Type} [DecidableEq κ] : List (κ × α) → κ → α → List (κ × α)
  | [], k, v => [(k, v)]
  | p :: ps, k, v => if p.1 = k then (k, v) :: ps else p :: dinsert ps k v

/-- Association-list model of Python `d.get(k)` / `d[k]`: first match. -/
def alookup {κ α : Type} [DecidableEq κ] : List (κ × α) → κ → Option α
  | [], _ => none
  | p :: ps, k => if p.1 = k then some p.2 else alookup ps k

/-- Keys of an association list are pairwise distinct (true of any list that
models a Python `dict`). -/
def NodupKeys {κ α : Type} (l : List (κ × α)) : Prop :=
  (l.map Prod.fst).Nodup

instance {κ α : Type} [DecidableEq κ] (l : List (κ × α)) :
    Decidable (NodupKeys l) := by
  unfold NodupKeys; infer_instance

/-- A locus key: `(CHROM, POS)`. -/
abbrev Locus := String × Int

/-- `allele → frequency`, the dict built on lines 32–36 of the script. -/
abbrev FreqMap := List (String × PFloat)

/-- Per-locus, per-clade record: `(perc_genotyped, allele_freqs)`. -/
abbrev CladeRec := ℚ × FreqMap

/-- The aggregated table `all_alleles`: locus → clade → record. -/
abbrev Table := List (Locus × List (String × CladeRec))

/-- The guard of line 47 of the script:
`max(allele_freqs.values()) >= 1.0 - error_tolerance`.
Python raises `ValueError` on an empty dict; an empty map is modelled as not
qualifying (no record produced by the aggregator has one). -/
def maxFreqGE (freqs : FreqMap) (bound : ℚ) : Bool :=
  match freqs with
  | [] => false
  | f :: fs => PFloat.ple (PFloat.val bound) (pymax1 f.2 (fs.map Prod.snd))

/-- The clades of one locus passing the test of line 47, each with its full
frequency map (the appended pairs of line 48). -/
def fixedQuals (miss_tolerance error_tolerance : ℚ)
    (clade_data : List (String × CladeRec)) : List (String × FreqMap) :=
  clade_data.filterMap (fun c =>
    if decide (miss_tolerance ≤ c.2.1) && maxFreqGE c.2.2 (1 - error_tolerance)
    then some (c.1, c.2.2) else none)

/-- `identify_fixed_alleles` (lines 43–49): for every (locus, clade) record,
keep the clade (with its full frequency map) when
`perc_genotyped >= miss_tolerance` and the maximum frequency is at least
`1 - error_tolerance`; group the kept clades by locus. -/
def identify_fixed_alleles (t : Table) (miss_tolerance : ℚ)
    (error_tolerance : ℚ) : List (Locus × List (String × FreqMap)) :=
  t.filterMap (fun x =>
    if (fixedQuals miss_tolerance error_tolerance x.2).isEmpty then none
    else some (x.1, fixedQuals miss_tolerance error_tolerance x.2))

/-- The fold of Python `max(.., key=..)` over the items of a frequency dict:
keep the current best pair, replace it when a later pair's value compares
strictly greater (ties keep the earlier pair). -/
def pyMaxPair (f : String × PFloat) (fs : List (String × PFloat)) :
    String × PFloat :=
  fs.foldl (fun best q => if PFloat.plt best.2 q.2 then q else best) f

/-- `max(allele_freqs, key=allele_freqs.get)` (line 57): the first key whose
frequency is not strictly exceeded later; Python raises on an empty dict,
modelled by the `""` default (all records carry nonempty maps). -/
def pyFixedAllele (freqs : FreqMap) : String :=
  match freqs with
  | [] => ""
  | f :: fs => (pyMaxPair f fs).1

/-- The dict `fixed_alleles_per_clade` of lines 55–58 for one locus. -/
def fixedPerClade (clade_data : List (String × FreqMap)) : List (String × String) :=
  clade_data.foldl (fun m c => dinsert m c.1 (pyFixedAllele c.2)) []

/-- `find_unique_fixed_alleles` (lines 51–67): keep a locus when it has a
single fixed clade, or when the per-clade fixed alleles (collected into the
dict `fixed_alleles_per_clade`) are pairwise distinct. -/
def find_unique_fixed_alleles (fixed_alleles : List (Locus × List (String × FreqMap))) :
    List (Locus × List (String × FreqMap)) :=
  fixed_alleles.filterMap (fun x =>
    if x.2.length = 1 then some x
    else if ((fixedPerClade x.2).map Prod.snd).Nodup then some x
    else none)

/-- The skip test of lines 73–75 of the script: some clade at the locus has
`perc_genotyped == 0`, or some frequency in some clade's map is NaN. -/
def hasBadClade (clade_data : List (String × CladeRec)) : Bool :=
  clade_data.any (fun c =>
    decide (c.2.1 = 0) || c.2.2.any (fun af => af.2.isnan))

/-- The set `other_clades_alleles` of lines 81–86 for one clade of one locus:
the alleles carried above `error_tolerance` by the other clades. -/
def otherCladesAlleles (error_tolerance : ℚ) (clade_data : List (String × CladeRec))
    (clade : String) : List String :=
  (clade_data.filter (fun o => o.1 ≠ clade)).flatMap
    (fun o => (o.2.2.filter
      (fun af => PFloat.plt (PFloat.val error_tolerance) af.2)).map Prod.fst)

/-- The dict `private_alleles_set` of lines 88–89 for one clade: its alleles
above `error_tolerance` that no other clade carries above `error_tolerance`,
with the allele's frequency and the clade's `perc_genotyped`. -/
def privateSet (error_tolerance : ℚ) (clade_data : List (String × CladeRec))
    (c : String × CladeRec) : List (String × (PFloat × ℚ)) :=
  (c.2.2.filter (fun af => PFloat.plt (PFloat.val error_tolerance) af.2)).filterMap
    (fun af =>
      if af.1 ∈ otherCladesAlleles error_tolerance clade_data c.1 then none
      else some (af.1, (af.2, c.2.1)))

/-- The dict `private_alleles_at_pos` of lines 76–92 for one locus. -/
def privateQuals (error_tolerance : ℚ) (clade_data : List (String × CladeRec)) :
    List (String × List (String × (PFloat × ℚ))) :=
  clade_data.filterMap (fun c =>
    if (privateSet error_tolerance clade_data c).isEmpty then none
    else some (c.1, privateSet error_tolerance clade_data c))

/-- `identify_private_alleles` (lines 69–97): skip a locus when `hasBadClade`;
otherwise, for each clade, keep the alleles whose frequency strictly exceeds
`error_tolerance` and which no other clade carries above `error_tolerance`,
recording the allele's frequency and the clade's `perc_genotyped`; drop empty
clade entries and empty loci. -/
def identify_private_alleles (t : Table) (error_tolerance : ℚ) :
    List (Locus × List (String × List (String × (PFloat × ℚ)))) :=
  t.filterMap (fun x =>
    if hasBadClade x.2 then none
    else if (privateQuals error_tolerance x.2).isEmpty then none
    else some (x.1, privateQuals error_tolerance x.2))

/-- The dict `genotyped_clades` of line 104 for one locus. -/
def genotypedClades (clade_data : List (String × CladeRec)) : List (String × ℚ) :=
  clade_data.filterMap (fun c =>
    if decide (0 < c.2.1) then some (c.1, c.2.1) else none)

/-- The set `missing_clades` of line 105 for one locus. -/
def missingClades (clade_data : List (String × CladeRec)) : List String :=
  clade_data.filterMap (fun c =>
    if decide (c.2.1 = 0) then some c.1 else none)

/-- `find_private_sites` (lines 99–114).  Per locus, `genotyped_clades` is the
dict of clades with `perc_genotyped > 0` and `missing_clades` the set of clades
with `perc_genotyped == 0`; a locus with exactly one genotyped clade and at
least one missing clade yields a private site `(clade, perc_genotyped)`, and a
locus with several genotyped clades and exactly one missing clade yields a
uniquely-missing site carrying `genotyped_clades`. -/
def find_private_sites (t : Table) :
    List (Locus × (String × ℚ)) × List (Locus × List (String × ℚ)) :=
  (t.filterMap (fun x =>
      if (genotypedClades x.2).length = 1 ∧ 0 < (missingClades x.2).length
      then some (x.1, (genotypedClades x.2).headD ("", 0)) else none),
   t.filterMap (fun x =>
      if 1 < (genotypedClades x.2).length ∧ (missingClades x.2).length = 1
      then some (x.1, genotypedClades x.2) else none))

/-- The set `all_alleles_set` of lines 125–130 for one locus: the union of
the alleles seen across the clade records (each distinct allele once).
A Python `set` iterates in arbitrary order; the model uses the deduplicated
seen order, which yields the same `max_diff` sum because rational addition
is commutative and NaN absorbs regardless of order. -/
def allAllelesSet (clade_freqs : List CladeRec) : List String :=
  (clade_freqs.flatMap (fun c => c.2.map Prod.fst)).dedup

/-- The per-clade frequencies of one allele, line 135: `get(allele, 0.0)`. -/
def alleleFreqsAcross (clade_freqs : List CladeRec) (allele : String) :
    List PFloat :=
  clade_freqs.map (fun c => (alookup c.2 allele).getD (PFloat.val 0))

/-- `max_diff` of lines 133–136 for one locus: the sum over the locus's
alleles of `max(freqs) - min(freqs)`. -/
def maxDiff (clade_freqs : List CladeRec) : PFloat :=
  (allAllelesSet clade_freqs).foldl (fun acc allele =>
    PFloat.padd acc (PFloat.psub (pymaxD (alleleFreqsAcross clade_freqs allele))
      (pyminD (alleleFreqsAcross clade_freqs allele)))) (PFloat.val 0)

/-- `avg_genotyped` of line 138 for one locus. -/
def avgGenotyped (clade_freqs : List CladeRec) : ℚ :=
  (clade_freqs.map Prod.fst).sum / clade_freqs.length

/-- Mathematical maximum of a nonempty list of rationals (head and tail),
stated from the spec's words for the divergence refinement. -/
def specMaxQ (x : ℚ) (xs : List ℚ) : ℚ :=
  xs.foldl max x

/-- Mathematical minimum of a nonempty list of rationals. -/
def specMinQ (x : ℚ) (xs : List ℚ) : ℚ :=
  xs.foldl min x

/-- From the spec's words (§4.6): the frequency spread of one allele at one
locus — maximum frequency across clades minus minimum frequency across
clades, an allele absent from a clade's map counting as frequency 0. -/
def specSpread (clade_freqs : List CladeRec) (allele : String) : ℚ :=
  match (alleleFreqsAcross clade_freqs allele).map PFloat.toRatD with
  | [] => 0
  | x :: xs => specMaxQ x xs - specMinQ x xs

/-- The worked example of spec §8: two fully genotyped clades fixed on
opposite alleles. -/
def twoCladeExample : List (String × CladeRec) :=
  [("A", (1, [("A", PFloat.val 1), ("T", PFloat.val 0)])),
   ("B", (1, [("A", PFloat.val 0), ("T", PFloat.val 1)]))]

/-- `compute_divergence_scores` (lines 116–141): skip loci with fewer than two
clade records; otherwise sum, over the union of alleles seen at the locus,
`max(freqs) - min(freqs)` where `freqs` are the per-clade frequencies of the
allele (0 when absent), and pair with the mean `perc_genotyped`. -/
def compute_divergence_scores (t : Table) : List (Locus × (PFloat × ℚ)) :=
  t.filterMap (fun x =>
    if (x.2.map Prod.snd).length < 2 then none
    else some (x.1, (maxDiff (x.2.map Prod.snd), avgGenotyped (x.2.map Prod.snd))))

/-- Python `round` to an integer: round-half-to-even (banker's rounding). -/
def roundHalfEven (q : ℚ) : ℤ :=
  if q - ⌊q⌋ = 1/2 then (if 2 ∣ ⌊q⌋ then ⌊q⌋ else ⌊q⌋ + 1) else round q

/-- Python `round(x, 6)`: round to 6 decimal places, ties to even. -/
def round6 (q : ℚ) : ℚ :=
  (roundHalfEven (q * 1000000) : ℚ) / 1000000

/-- The sort key of line 145: `round(float(x[1][0]), 6)` (the score, rounded;
the selector only sorts entries whose score is not NaN). -/
def sortKey (x : Locus × (PFloat × ℚ)) : ℚ :=
  round6 x.2.1.toRatD

/-- The ordering realising `sorted(..., reverse=True)` on the rounded score:
`a` may precede `b` when `a`'s key is at least `b`'s. -/
def descByKey (a b : Locus × (PFloat × ℚ)) : Prop :=
  sortKey b ≤ sortKey a

instance : DecidableRel descByKey := fun a b => by
  unfold descByKey; infer_instance

instance : IsTotal (Locus × (PFloat × ℚ)) descByKey :=
  ⟨fun a b => le_total (sortKey b) (sortKey a)⟩

instance : IsTrans (Locus × (PFloat × ℚ)) descByKey :=
  ⟨fun _ _ _ h1 h2 => le_trans h2 h1⟩

/-- `filtered_scores` (line 144): drop entries whose score is NaN. -/
def filtered_scores (divergence_scores : List (Locus × (PFloat × ℚ))) :
    List (Locus × (PFloat × ℚ)) :=
  divergence_scores.filter (fun x => !x.2.1.isnan)

/-- `sorted_loci` before truncation (line 145).  Python's `sorted` with
`reverse=True` is a stable sort under `descByKey` (a total preorder), and all
stable sorts of a list under a total transitive relation coincide; the model
uses insertion sort, which the kernel can evaluate. -/
def sorted_loci (divergence_scores : List (Locus × (PFloat × ℚ))) :
    List (Locus × (PFloat × ℚ)) :=
  (filtered_scores divergence_scores).insertionSort descByKey

/-- `write_most_divergent_loci` (lines 143–150), modelled as the list of
entries written to the file: NaN scores filtered out, the rest sorted
descending by rounded score, truncated to `num_div_loci`. -/
def write_most_divergent_loci (divergence_scores : List (Locus × (PFloat × ℚ)))
    (num_div_loci : ℕ) : List (Locus × (PFloat × ℚ)) :=
  (sorted_loci divergence_scores).take num_div_loci

/-- The output files written by `main` (lines 266–273), as a function of the
number of `(file, n_indv)` pairs in `file_list`: the sixth file is written
only under the guard `len(file_list) > 2`. -/
def output_files (file_list_length : ℕ) (out_name : String) : List String :=
  [out_name ++ "_most_divergent_loci.txt",
   out_name ++ "_fixed_alleles.txt",
   out_name ++ "_unique_fixed_alleles.txt",
   out_name ++ "_private_alleles.txt",
   out_name ++ "_private_sites.txt"]
  ++ (if 2 < file_list_length then [out_name ++ "_uniquely_missing_sites.txt"]
      else [])

instance {ε α : Type} [DecidableEq ε] [DecidableEq α] :
    DecidableEq (Except ε α) := fun a b =>
  match a, b with
  | .ok x, .ok y => decidable_of_iff (x = y) (by simp)
  | .ok _, .error _ => isFalse (by simp)
  | .error _, .ok _ => isFalse (by simp)
  | .error e, .error f => decidable_of_iff (e = f) (by simp)

/-- A Python exception surfacing from `process_files`. -/
inductive PyExn where
  | valueError : PyExn
  | zeroDivisionError : PyExn
  | indexError : PyExn
deriving DecidableEq, Repr

/-- Split a character list at every occurrence of `sep`
(Python `s.split(sep)` for a one-character separator; `"".split(sep)` is
`[""]`, so the empty list maps to `[[]]`). -/
def splitOnChar (sep : Char) : List Char → List (List Char)
  | [] => [[]]
  | c :: cs =>
    match splitOnChar sep cs with
    | [] => if c = sep then [[], []] else [[c]]
    | p :: ps => if c = sep then [] :: p :: ps else (c :: p) :: ps

/-- Python `str.strip()`: remove leading and trailing whitespace. -/
def stripChars (cs : List Char) : List Char :=
  ((cs.dropWhile Char.isWhitespace).reverse.dropWhile Char.isWhitespace).reverse

/-- Digits of a decimal literal, as a natural number; `none` on the empty
string or any non-digit character. -/
def digitsVal (cs : List Char) : Option ℕ :=
  if cs.isEmpty then none
  else if cs.all Char.isDigit then
    some (cs.foldl (fun acc c => acc * 10 + (c.toNat - 48)) 0)
  else none

/-- Model of Python `int(s)`, restricted to optionally-signed decimal
literals surrounded by optional whitespace (the forms occurring in `.frq`
files); anything else is unparseable and raises `ValueError`. -/
def pyInt (s : String) : Option ℤ :=
  match stripChars s.toList with
  | '-' :: rest => (digitsVal rest).map (fun n => -(n : ℤ))
  | '+' :: rest => (digitsVal rest).map (fun n => (n : ℤ))
  | cs => (digitsVal cs).map (fun n => (n : ℤ))

/-- An unsigned decimal float body: `d+`, `d+.d*` or `.d+`. -/
def decimalVal (cs : List Char) : Option ℚ :=
  match splitOnChar '.' cs with
  | [intPart] => (digitsVal intPart).map (fun n => (n : ℚ))
  | [intPart, fracPart] =>
    if intPart.isEmpty ∧ fracPart.isEmpty then none
    else
      let ip : Option ℕ := if intPart.isEmpty then some 0 else digitsVal intPart
      let fp : Option ℕ := if fracPart.isEmpty then some 0 else digitsVal fracPart
      match ip, fp with
      | some i, some f => some ((i : ℚ) + (f : ℚ) / ((10 : ℚ) ^ fracPart.length))
      | _, _ => none
  | _ => none

/-- Model of Python `float(s)`, restricted to optionally-signed decimal
literals and the `nan` forms (the forms `vcftools` writes into `.frq`
frequency cells; `float` accepts a few further spellings, none of which occur
there); anything else raises `ValueError`. -/
def pyFloat (s : String) : Option PFloat :=
  let body : List Char → Option PFloat := fun cs =>
    if cs.map Char.toLower = ['n', 'a', 'n'] then some PFloat.nan
    else (decimalVal cs).map PFloat.val
  match stripChars s.toList with
  | '-' :: rest => body rest
  | '+' :: rest => body rest
  | cs => body cs

/-- One input file, with each line already split on tabs (the script's
`line.strip().split("\t")`): the header row and the data rows. -/
structure FrqFile where
  path : String
  header : List String
  rows : List (List String)

/-- The header row `vcftools --freq` writes into every `.frq` file. -/
def frqHeader : List String :=
  ["CHROM", "POS", "N_ALLELES", "N_CHR", "\x7bALLELE:FREQ\x7d"]

/-- `header.index(name)`: position of a column, `ValueError` when absent. -/
def headerIndex (header : List String) (name : String) : Except PyExn ℕ :=
  match header.findIdx? (· = name) with
  | some i => .ok i
  | none => .error .valueError

/-- `row[i]`: `IndexError` when the row is too short. -/
def rowGet (row : List String) (i : ℕ) : Except PyExn String :=
  match row[i]? with
  | some v => .ok v
  | none => .error .indexError

/-- Python `s.replace(".frq", "")`: drop every (left-to-right,
non-overlapping) occurrence of `.frq`. -/
def stripFrq : List Char → List Char
  | '.' :: 'f' :: 'r' :: 'q' :: rest => stripFrq rest
  | c :: cs => c :: stripFrq cs
  | [] => []

/-- `file.split('/')[-1].replace('.frq', '')` (line 18). -/
def cladeNameOf (path : String) : String :=
  String.mk (stripFrq ((splitOnChar '/' path.toList).getLastD path.toList))

/-- `all_alleles.setdefault((CHROM, POS), {})[clade_name] = v` (line 39). -/
def tableInsert (t : Table) (l : Locus) (clade : String) (v : CladeRec) :
    Table :=
  match t with
  | [] => [(l, [(clade, v)])]
  | e :: es =>
    if e.1 = l then (l, dinsert e.2 clade v) :: es else e :: tableInsert es l clade v

/-- The allele loop of lines 32–36: read `num_alleles` consecutive cells
starting at `allele_freq_index`, each of the form `allele:freq`; tuple
unpacking of `cell.split(":")` raises `ValueError` unless there are exactly
two parts, and `float(freq)` raises `ValueError` when unparseable. -/
def readAlleles (row : List String) (allele_freq_index : ℕ) (num_alleles : ℕ) :
    Except PyExn FreqMap :=
  (List.range num_alleles).foldlM (fun m j => do
    let cell ← rowGet row (allele_freq_index + j)
    match splitOnChar ':' cell.toList with
    | [allele, freqStr] =>
      match pyFloat (String.mk freqStr) with
      | some freq => pure (dinsert m (String.mk allele) freq)
      | none => .error .valueError
    | _ => .error .valueError) []

/-- One data row of `process_files` (lines 24–39), updating the table. -/
def processRow (header : List String) (clade_name : String) (n_indv : ℤ)
    (t : Table) (row : List String) : Except PyExn Table := do
  let chromIdx ← headerIndex header "CHROM"
  let CHROM ← rowGet row chromIdx
  let posIdx ← headerIndex header "POS"
  let posStr ← rowGet row posIdx
  let POS ← match pyInt posStr with
    | some v => Except.ok v
    | none => Except.error .valueError
  let nAllelesIdx ← headerIndex header "N_ALLELES"
  let nAllelesStr ← rowGet row nAllelesIdx
  let num_alleles ← match pyInt nAllelesStr with
    | some v => Except.ok v
    | none => Except.error .valueError
  let nChrIdx ← headerIndex header "N_CHR"
  let nChrStr ← rowGet row nChrIdx
  let num_chromosomes ← match pyInt nChrStr with
    | some v => Except.ok v
    | none => Except.error .valueError
  let genotyped_indv : ℚ := (num_chromosomes : ℚ) / 2
  let afIdx ← headerIndex header "\x7bALLELE:FREQ\x7d"
  let allele_freqs ← readAlleles row afIdx num_alleles.toNat
  if n_indv = 0 then Except.error .zeroDivisionError
  else
    let perc_genotyped : ℚ := genotyped_indv / (n_indv : ℚ)
    pure (tableInsert t (CHROM, POS) clade_name (perc_genotyped, allele_freqs))

/-- `process_files` (lines 14–41): fold all data rows of all files into the
aggregated table; any malformed numeric field surfaces as a `ValueError`, a
zero `n_indv` as a `ZeroDivisionError` at the first data row of that file
(the division of line 38 is not guarded). -/
def process_files (file_list : List (FrqFile × ℤ)) : Except PyExn Table :=
  file_list.foldlM (fun t f =>
    f.1.rows.foldlM (processRow f.1.header (cladeNameOf f.1.path) f.2) t) []

example : identify_fixed_alleles
    [(("1", 100), [("A", (1, [("A", PFloat.val 1), ("T", PFloat.val 0)])),
                   ("B", ((1:ℚ)/2, [("A", PFloat.val ((1:ℚ)/2)), ("T", PFloat.val ((1:ℚ)/2))]))])]
    1 0
    = [(("1", 100), [("A", [("A", PFloat.val 1), ("T", PFloat.val 0)])])] := by decide

example : find_unique_fixed_alleles
    [(("1", 100), [("A", [("A", PFloat.val 1)]), ("B", [("A", PFloat.val 1)])]),
     (("1", 200), [("A", [("A", PFloat.val 1)]), ("B", [("T", PFloat.val 1)])])]
    = [(("1", 200), [("A", [("A", PFloat.val 1)]), ("B", [("T", PFloat.val 1)])])] := by decide

namespace PFloat

@[simp] theorem isnan_nan : nan.isnan = true := rfl

@[simp] theorem isnan_val (q : ℚ) : (val q).isnan = false := rfl

@[simp] theorem ple_val (a b : ℚ) : ple (val a) (val b) = decide (a ≤ b) := rfl

@[simp] theorem plt_val (a b : ℚ) : plt (val a) (val b) = decide (a < b) := rfl

@[simp] theorem ple_nan_left (x : PFloat) : ple nan x = false := rfl

@[simp] theorem plt_nan_left (x : PFloat) : plt nan x = false := rfl

@[simp] theorem ple_nan_right (x : PFloat) : ple x nan = false := by cases x <;> rfl

@[simp] theorem plt_nan_right (x : PFloat) : plt x nan = false := by cases x <;> rfl

@[simp] theorem padd_val (a b : ℚ) : padd (val a) (val b) = val (a + b) := rfl

@[simp] theorem psub_val (a b : ℚ) : psub (val a) (val b) = val (a - b) := rfl

@[simp] theorem toRatD_val (q : ℚ) : (val q).toRatD = q := rfl

theorem exists_val_of_isnan_eq_false {x : PFloat} (h : x.isnan = false) :
    ∃ q, x = val q := by
  cases x with
  | nan => simp at h
  | val q => exact ⟨q, rfl⟩

end PFloat

/-- In a list with pairwise-distinct keys, a key determines its value. -/
theorem NodupKeys.eq_of_mem {κ α : Type} {t : List (κ × α)} (h : NodupKeys t)
    {k : κ} {a b : α} (ha : (k, a) ∈ t) (hb : (k, b) ∈ t) : a = b := by
  induction t with
  | nil => cases ha
  | cons x ts ih =>
    unfold NodupKeys at h
    rw [List.map_cons, List.nodup_cons] at h
    rcases List.mem_cons.mp ha with heq | ha'
    · subst heq
      rcases List.mem_cons.mp hb with heq2 | hb'
      · exact (congrArg Prod.snd heq2).symm
      · exact absurd (List.mem_map_of_mem Prod.fst hb') h.1
    · rcases List.mem_cons.mp hb with heq2 | hb'
      · subst heq2
        exact absurd (List.mem_map_of_mem Prod.fst ha') h.1
      · exact ih h.2 ha' hb'

/-- The keys of a key-preserving `filterMap` form a sublist of the input's
keys. -/
theorem keys_filterMap_sublist {κ α β : Type} (f : κ × α → Option (κ × β))
    (hf : ∀ x y, f x = some y → y.1 = x.1) (t : List (κ × α)) :
    List.Sublist ((t.filterMap f).map Prod.fst) (t.map Prod.fst) := by
  induction t with
  | nil => simp
  | cons x ts ih =>
    rw [List.filterMap_cons]
    cases hx : f x with
    | none => exact (List.map_cons _ _ _ ▸ ih.cons x.1)
    | some y =>
      rw [List.map_cons, List.map_cons, hf x y hx]
      exact ih.cons₂ x.1

/-- A key-preserving `filterMap` preserves key distinctness. -/
theorem nodupKeys_filterMap {κ α β : Type} (f : κ × α → Option (κ × β))
    (hf : ∀ x y, f x = some y → y.1 = x.1) {t : List (κ × α)}
    (h : NodupKeys t) : NodupKeys (t.filterMap f) :=
  ((keys_filterMap_sublist f hf t).nodup h)

/-- Membership in a key-preserving `filterMap` of a list with distinct keys,
phrased through the (unique) input entry at that key. -/
theorem mem_keyed_filterMap {κ α β : Type} (f : κ × α → Option (κ × β))
    (hf : ∀ x y, f x = some y → y.1 = x.1) {t : List (κ × α)}
    (hkeys : NodupKeys t) {l : κ} {a : α} (ha : (l, a) ∈ t) {b : β} :
    (l, b) ∈ t.filterMap f ↔ f (l, a) = some (l, b) := by
  constructor
  · intro hmem
    rcases List.mem_filterMap.mp hmem with ⟨⟨x1, x2⟩, hx, hfx⟩
    have h1 : l = x1 := hf _ _ hfx
    subst h1
    have h2 : x2 = a := hkeys.eq_of_mem hx ha
    subst h2
    exact hfx
  · intro hfa
    exact List.mem_filterMap.mpr ⟨(l, a), ha, hfa⟩

-- Sanity checks: the embedding computes on concrete inputs.
example : process_files
    [({ path := "d/A.frq",
        header := ["CHROM","POS","N_ALLELES","N_CHR","\x7bALLELE:FREQ\x7d"],
        rows := [["1","100","2","10","A:1","T:0"]] }, 5)]
    = .ok [(("1",100), [("A", (1, [("A", PFloat.val 1), ("T", PFloat.val 0)]))])] := by decide

example : process_files
    [({ path := "d/A.frq",
        header := ["CHROM","POS","N_ALLELES","N_CHR","\x7bALLELE:FREQ\x7d"],
        rows := [["1","100","1","10","A:-nan"]] }, 5)]
    = .ok [(("1",100), [("A", (1, [("A", PFloat.nan)]))])] := by decide

example : process_files
    [({ path := "A.frq",
        header := ["CHROM","POS","N_ALLELES","N_CHR","\x7bALLELE:FREQ\x7d"],
        rows := [["1","100","1","10","A:1"]] }, 0)]
    = .error .zeroDivisionError := by decide

example : process_files
    [({ path := "A.frq",
        header := ["CHROM","POS","N_ALLELES","N_CHR","\x7bALLELE:FREQ\x7d"],
        rows := [] }, 0)] = .ok [] := by decide

example : process_files
    [({ path := "A.frq",
        header := ["CHROM","POS","N_ALLELES","N_CHR","\x7bALLELE:FREQ\x7d"],
        rows := [["1","100","1","10","A:zzz"]] }, 5)]
    = .error .valueError := by decide

example : compute_divergence_scores
    [(("1",100), [("A", (1, [("A", PFloat.val 1), ("T", PFloat.val 0)])),
                  ("B", (1, [("A", PFloat.val 0), ("T", PFloat.val 1)]))])]
    = [(("1",100), (PFloat.val 2, 1))] := by decide

example : write_most_divergent_loci
    [(("1",100), (PFloat.val 1, 1)), (("1",200), (PFloat.nan, 1)),
     (("1",300), (PFloat.val 2, 1))] 5
    = [(("1",300), (PFloat.val 2, 1)), (("1",100), (PFloat.val 1, 1))] := by decide

example : round6 ((1:ℚ)/3) = 333333/1000000 := by decide

example : identify_private_alleles
    [(("1",100), [("A", (1, [("A", PFloat.val 1), ("T", PFloat.val 0)])),
                  ("B", (1, [("A", PFloat.val ((1:ℚ)/2)), ("T", PFloat.val ((1:ℚ)/2))]))])] 0
    = [(("1",100), [("B", [("T", (PFloat.val ((1:ℚ)/2), 1))])])] := by decide

example : find_private_sites
    [(("1",100), [("A", (1, [])), ("B", (0, [])), ("C", (0, []))]),
     (("1",200), [("A", (1, [])), ("B", (1, [])), ("C", (0, []))])]
    = ([(("1",100), ("A", 1))], [(("1",200), [("A",1), ("B",1)])]) := by decide

/-- A pair is in `fixedQuals` exactly when the clade's record passes the
line-47 test with that frequency map. -/
theorem fixedQuals_mem (mt et : ℚ) (cd : List (String × CladeRec)) (c : String)
    (freqs : FreqMap) :
    (c, freqs) ∈ fixedQuals mt et cd ↔
      ∃ p, (c, (p, freqs)) ∈ cd ∧ mt ≤ p ∧ maxFreqGE freqs (1 - et) = true := by
  unfold fixedQuals
  rw [List.mem_filterMap]
  constructor
  · rintro ⟨⟨cn, p, fm⟩, hmem, hif⟩
    dsimp only at hif
    split at hif
    · rename_i hcond
      injection hif with h1
      injection h1 with e1 e2
      subst e1; subst e2
      rw [Bool.and_eq_true, decide_eq_true_eq] at hcond
      exact ⟨p, hmem, hcond.1, hcond.2⟩
    · exact Option.noConfusion hif
  · rintro ⟨p, hmem, hle, hmax⟩
    exact ⟨(c, (p, freqs)), hmem, by simp [hle, hmax]⟩

/-- C1: for every aggregated table (its locus keys distinct, as for any
Python dict) and thresholds, the fixed-allele classifier's output has a
(locus, clade) entry iff that clade's record at that locus has
`perc_genotyped ≥ miss_tolerance` and maximum allele frequency
`≥ 1 − error_tolerance`; the entry carries the clade's full
allele-frequency mapping, and the output is grouped by locus (each locus
at most once, in table order). -/
theorem identify_fixed_alleles_spec (t : Table) (mt et : ℚ)
    (hkeys : NodupKeys t) :
    (∀ l cd, (l, cd) ∈ t → ∀ c freqs,
      ((∃ es, (l, es) ∈ identify_fixed_alleles t mt et ∧ (c, freqs) ∈ es) ↔
        ∃ p, (c, (p, freqs)) ∈ cd ∧ mt ≤ p ∧ maxFreqGE freqs (1 - et) = true))
    ∧ NodupKeys (identify_fixed_alleles t mt et)
    ∧ List.Sublist ((identify_fixed_alleles t mt et).map Prod.fst)
        (t.map Prod.fst) := by
  have hf : ∀ (x : Locus × List (String × CladeRec))
      (y : Locus × List (String × FreqMap)),
      (if (fixedQuals mt et x.2).isEmpty then none
       else some (x.1, fixedQuals mt et x.2)) = some y → y.1 = x.1 := by
    intro x y h
    split at h
    · exact Option.noConfusion h
    · injection h with h1
      exact (congrArg Prod.fst h1).symm
  refine ⟨?_, nodupKeys_filterMap _ hf hkeys, keys_filterMap_sublist _ hf t⟩
  intro l cd hcd c freqs
  constructor
  · rintro ⟨es, hes, hc⟩
    have hmem := (mem_keyed_filterMap _ hf hkeys hcd).mp hes
    dsimp only at hmem
    split at hmem
    · exact Option.noConfusion hmem
    · injection hmem with h1
      injection h1 with e1 e2
      rw [← e2] at hc
      exact (fixedQuals_mem mt et cd c freqs).mp hc
  · intro hex
    have hcq : (c, freqs) ∈ fixedQuals mt et cd :=
      (fixedQuals_mem mt et cd c freqs).mpr hex
    have hne : fixedQuals mt et cd ≠ [] := List.ne_nil_of_mem hcq
    refine ⟨fixedQuals mt et cd, ?_, hcq⟩
    unfold identify_fixed_alleles
    rw [mem_keyed_filterMap _ hf hkeys hcd]
    dsimp only
    rw [if_neg (by simpa [List.isEmpty_iff] using hne)]

/-- Closed instance of `identify_fixed_alleles_spec`. -/
theorem identify_fixed_alleles_spec_witness :
    ∃ es, ((("1", (100:ℤ)), es) ∈ identify_fixed_alleles
      [(("1", 100), [("A", (1, [("A", PFloat.val 1), ("T", PFloat.val 0)])),
                     ("B", (0, [("A", PFloat.val 1)]))])] 1 0)
      ∧ ("A", [("A", PFloat.val 1), ("T", PFloat.val 0)]) ∈ es :=
  ((identify_fixed_alleles_spec
      [(("1", 100), [("A", (1, [("A", PFloat.val 1), ("T", PFloat.val 0)])),
                     ("B", (0, [("A", PFloat.val 1)]))])] 1 0 (by decide)).1
    ("1", 100)
    [("A", (1, [("A", PFloat.val 1), ("T", PFloat.val 0)])),
     ("B", (0, [("A", PFloat.val 1)]))]
    (by decide) "A" [("A", PFloat.val 1), ("T", PFloat.val 0)]).mpr
    ⟨1, by decide, by decide, by decide⟩

/-- C10: a locus present in the fixed-allele output maps to a non-empty list
of clade entries, and a locus present in the private-allele output maps to a
non-empty clade map whose clades all map to non-empty allele maps. -/
theorem classifier_outputs_nonempty (t : Table) (mt et : ℚ) :
    (∀ l es, (l, es) ∈ identify_fixed_alleles t mt et → es ≠ [])
    ∧ (∀ l pm, (l, pm) ∈ identify_private_alleles t et →
        pm ≠ [] ∧ ∀ c as, (c, as) ∈ pm → as ≠ []) := by
  constructor
  · intro l es hmem
    rcases List.mem_filterMap.mp hmem with ⟨x, _, hfx⟩
    split at hfx
    · exact Option.noConfusion hfx
    · rename_i hne
      injection hfx with h1
      injection h1 with e1 e2
      intro hnil
      exact hne (by simp [e2.trans hnil])
  · intro l pm hmem
    rcases List.mem_filterMap.mp hmem with ⟨x, _, hfx⟩
    split at hfx
    · exact Option.noConfusion hfx
    · split at hfx
      · exact Option.noConfusion hfx
      · rename_i hne
        injection hfx with h1
        injection h1 with e1 e2
        constructor
        · intro hnil
          exact hne (by simp [e2.trans hnil])
        · intro c as hcas
          rw [← e2] at hcas
          rcases List.mem_filterMap.mp hcas with ⟨cc, _, hg⟩
          split at hg
          · exact Option.noConfusion hg
          · rename_i hne2
            injection hg with h2
            injection h2 with e3 e4
            intro hnil
            exact hne2 (by simp [e4.trans hnil])

/-- Closed instance of `classifier_outputs_nonempty`. -/
theorem classifier_outputs_nonempty_witness :
    ([("A", [("A", PFloat.val 1)])] : List (String × FreqMap)) ≠ []
    ∧ ([("A", [("X", (PFloat.val 1, (1:ℚ)))]), ("B", [("Y", (PFloat.val 1, 1))])] :
        List (String × List (String × (PFloat × ℚ)))) ≠ [] :=
  ⟨(classifier_outputs_nonempty [(("1", 100), [("A", (1, [("A", PFloat.val 1)]))])]
        1 0).1 ("1", 100) _ (by decide),
   ((classifier_outputs_nonempty
        [(("1", 100), [("A", (1, [("X", PFloat.val 1)])),
                       ("B", (1, [("Y", PFloat.val 1)]))])] 1 0).2
      ("1", 100) _ (by decide)).1⟩

namespace PFloat

theorem ple_refl_of_isnan_eq_false {x : PFloat} (h : x.isnan = false) :
    ple x x = true := by
  cases x with
  | nan => simp at h
  | val q => simp [ple]

theorem ple_of_plt {a b : PFloat} (h : plt a b = true) : ple a b = true := by
  cases a <;> cases b <;> simp_all [plt, ple]
  exact le_of_lt h

theorem plt_trans_ple {a b c : PFloat} (h1 : plt a b = true)
    (h2 : ple b c = true) : plt a c = true := by
  cases a <;> cases b <;> cases c <;> simp_all [plt, ple]
  exact lt_of_lt_of_le h1 h2

theorem ple_trans_plt {a b c : PFloat} (h1 : ple a b = true)
    (h2 : plt b c = true) : plt a c = true := by
  cases a <;> cases b <;> cases c <;> simp_all [plt, ple]
  exact lt_of_le_of_lt h1 h2

theorem ple_of_not_plt {a b : PFloat} (ha : a.isnan = false)
    (hb : b.isnan = false) (h : ¬ plt a b = true) : ple b a = true := by
  cases a <;> cases b <;> simp_all [plt, ple]

end PFloat


/-- `pyMaxPair f fs` is an element of `f :: fs`; when no value is NaN its
value bounds every value of `f :: fs` from above, and every pair strictly
before it in `f :: fs` has strictly smaller value — so it is the
first-encountered frequency-maximising pair. -/
theorem pyMaxPair_spec (fs : List (String × PFloat)) (f : String × PFloat)
    (hnan : ∀ af ∈ f :: fs, af.2.isnan = false) :
    ∃ pre post, f :: fs = pre ++ pyMaxPair f fs :: post
      ∧ (∀ af ∈ f :: fs, PFloat.ple af.2 (pyMaxPair f fs).2 = true)
      ∧ (∀ af ∈ pre, PFloat.plt af.2 (pyMaxPair f fs).2 = true) := by
  induction fs generalizing f with
  | nil =>
    refine ⟨[], [], rfl, ?_, by simp⟩
    intro af haf
    rw [List.mem_singleton] at haf
    subst haf
    exact PFloat.ple_refl_of_isnan_eq_false (hnan af (by simp))
  | cons q qs ih =>
    have hnan' : ∀ af ∈ (if PFloat.plt f.2 q.2 then q else f) :: qs,
        af.2.isnan = false := by
      intro af haf
      rcases List.mem_cons.mp haf with heq | h
      · subst heq
        split
        · exact hnan q (by simp)
        · exact hnan f (by simp)
      · exact hnan af (by simp [h])
    obtain ⟨pre', post', hdec, hple, hplt⟩ :=
      ih (if PFloat.plt f.2 q.2 then q else f) hnan'
    have hr : pyMaxPair f (q :: qs)
        = pyMaxPair (if PFloat.plt f.2 q.2 then q else f) qs := rfl
    by_cases hc : PFloat.plt f.2 q.2 = true
    · rw [if_pos hc] at hdec hple hplt hr
      have hfr : PFloat.plt f.2 (pyMaxPair q qs).2 = true :=
        PFloat.plt_trans_ple hc (hple q (by simp))
      refine ⟨f :: pre', post', ?_, ?_, ?_⟩
      · rw [hr, List.cons_append, ← hdec]
      · intro af haf
        rcases List.mem_cons.mp haf with heq | h
        · subst heq
          rw [hr]
          exact PFloat.ple_of_plt hfr
        · rw [hr]
          exact hple af h
      · intro af haf
        rcases List.mem_cons.mp haf with heq | h
        · subst heq
          rw [hr]
          exact hfr
        · rw [hr]
          exact hplt af h
    · rw [if_neg hc] at hdec hple hplt hr
      have hqf : PFloat.ple q.2 f.2 = true :=
        PFloat.ple_of_not_plt (hnan f (by simp)) (hnan q (by simp)) hc
      cases pre' with
      | nil =>
        rw [List.nil_append] at hdec
        have hf : f = pyMaxPair f qs := (List.cons.inj hdec).1
        refine ⟨[], q :: qs, ?_, ?_, by simp⟩
        · rw [hr, ← hf, List.nil_append]
        · intro af haf
          rcases List.mem_cons.mp haf with heq | h
          · subst heq
            rw [hr, ← hf]
            exact PFloat.ple_refl_of_isnan_eq_false (hnan af (by simp))
          · rcases List.mem_cons.mp h with heq2 | h2
            · subst heq2
              rw [hr, ← hf]
              exact hqf
            · rw [hr]
              exact hple af (by simp [h2])
      | cons p0 pre'' =>
        rw [List.cons_append] at hdec
        have hp0 : f = p0 := (List.cons.inj hdec).1
        have hqs : qs = pre'' ++ pyMaxPair f qs :: post' := (List.cons.inj hdec).2
        have hfr : PFloat.plt f.2 (pyMaxPair f qs).2 = true := by
          have h0 := hplt p0 (by simp)
          rw [← hp0] at h0
          exact h0
        have hqr : PFloat.plt q.2 (pyMaxPair f qs).2 = true :=
          PFloat.ple_trans_plt hqf hfr
        refine ⟨f :: q :: pre'', post', ?_, ?_, ?_⟩
        · rw [hr, List.cons_append, List.cons_append, ← hqs]
        · intro af haf
          rcases List.mem_cons.mp haf with heq | h
          · subst heq
            rw [hr]
            exact hple af (by simp)
          · rcases List.mem_cons.mp h with heq2 | h2
            · subst heq2
              rw [hr]
              exact PFloat.ple_of_plt hqr
            · rw [hr]
              exact hple af (by simp [h2])
        · intro af haf
          rcases List.mem_cons.mp haf with heq | h
          · subst heq
            rw [hr]
            exact hfr
          · rcases List.mem_cons.mp h with heq2 | h2
            · subst heq2
              rw [hr]
              exact hqr
            · rw [hr]
              exact hplt af (by simp [hp0, h2])

/-- `d[k] = v` appends when `k` is not yet a key. -/
theorem dinsert_append_of_not_mem {κ α : Type} [DecidableEq κ]
    (m : List (κ × α)) (k : κ) (v : α) (h : k ∉ m.map Prod.fst) :
    dinsert m k v = m ++ [(k, v)] := by
  induction m with
  | nil => rfl
  | cons p ps ih =>
    rw [List.map_cons, List.mem_cons] at h
    push_neg at h
    unfold dinsert
    rw [if_neg (fun heq => h.1 heq.symm), ih h.2, List.cons_append]

/-- Folding dict insertions over entries with pairwise-distinct keys, none of
which is a key of the accumulator, appends the entries in order. -/
theorem foldl_dinsert_eq_append {κ α β : Type} [DecidableEq κ] (g : κ × α → β) :
    ∀ (cd : List (κ × α)) (acc : List (κ × β)),
    NodupKeys cd → (∀ k, k ∈ cd.map Prod.fst → k ∉ acc.map Prod.fst) →
    cd.foldl (fun m c => dinsert m c.1 (g c)) acc
      = acc ++ cd.map (fun c => (c.1, g c))
  | [], acc, _, _ => by simp
  | c :: cs, acc, hnd, hdisj => by
    rw [List.foldl_cons]
    have hc : c.1 ∉ acc.map Prod.fst := hdisj c.1 (by simp)
    rw [dinsert_append_of_not_mem _ _ _ hc]
    have hnd0 : c.1 ∉ cs.map Prod.fst ∧ NodupKeys cs := by
      unfold NodupKeys at hnd ⊢
      rw [List.map_cons, List.nodup_cons] at hnd
      exact hnd
    have hdisj' : ∀ k, k ∈ cs.map Prod.fst →
        k ∉ (acc ++ [(c.1, g c)]).map Prod.fst := by
      intro k hk
      rw [List.map_append, List.mem_append]
      rintro (h1 | h2)
      · exact hdisj k (by simp [hk]) h1
      · rw [List.map_singleton, List.mem_singleton] at h2
        exact hnd0.1 (h2 ▸ hk)
    rw [foldl_dinsert_eq_append g cs (acc ++ [(c.1, g c)]) hnd0.2 hdisj']
    simp

/-- For a clade dict with distinct clade names (any real input),
`fixed_alleles_per_clade` lists each clade with its fixed allele, in order. -/
theorem fixedPerClade_eq_map (cd : List (String × FreqMap)) (h : NodupKeys cd) :
    fixedPerClade cd = cd.map (fun c => (c.1, pyFixedAllele c.2)) := by
  unfold fixedPerClade
  simpa using foldl_dinsert_eq_append (fun c => pyFixedAllele c.2) cd [] h (by simp)

/-- C3: for every fixed-allele map (locus and clade keys distinct, as for any
Python dict), a locus is kept — with its entries unchanged — iff it has
exactly one fixed clade or the per-clade fixed alleles are pairwise distinct;
dropped loci are dropped entirely (the output only contains entries of the
input).  Each clade's fixed allele is its frequency-maximising allele with
ties broken in favour of the first encountered, which the last conjunct
establishes for `pyFixedAllele` on NaN-free nonempty maps. -/
theorem find_unique_fixed_alleles_spec
    (fm : List (Locus × List (String × FreqMap)))
    (hkeys : NodupKeys fm) (hclades : ∀ e ∈ fm, NodupKeys e.2) :
    (∀ l cd, (l, cd) ∈ fm →
      ((l, cd) ∈ find_unique_fixed_alleles fm ↔
        (cd.length = 1 ∨ (cd.map (fun c => pyFixedAllele c.2)).Nodup)))
    ∧ (∀ x, x ∈ find_unique_fixed_alleles fm → x ∈ fm)
    ∧ (∀ freqs : FreqMap, freqs ≠ [] →
        (∀ af ∈ freqs, af.2.isnan = false) →
        ∃ v pre post, freqs = pre ++ (pyFixedAllele freqs, v) :: post
          ∧ (∀ af ∈ freqs, PFloat.ple af.2 v = true)
          ∧ (∀ af ∈ pre, PFloat.plt af.2 v = true)) := by
  have hf : ∀ (x y : Locus × List (String × FreqMap)),
      (if x.2.length = 1 then some x
       else if ((fixedPerClade x.2).map Prod.snd).Nodup then some x
       else none) = some y → y.1 = x.1 := by
    intro x y h
    split at h
    · injection h with h1
      exact (congrArg Prod.fst h1).symm
    · split at h
      · injection h with h1
        exact (congrArg Prod.fst h1).symm
      · exact Option.noConfusion h
  refine ⟨?_, ?_, ?_⟩
  · intro l cd hcd
    have hmap : (fixedPerClade cd).map Prod.snd
        = cd.map (fun c => pyFixedAllele c.2) := by
      rw [fixedPerClade_eq_map cd (hclades (l, cd) hcd)]
      simp
    rw [show find_unique_fixed_alleles fm = fm.filterMap _ from rfl,
      mem_keyed_filterMap _ hf hkeys hcd]
    by_cases h1 : cd.length = 1
    · simp [h1]
    · by_cases h2 : (cd.map (fun c => pyFixedAllele c.2)).Nodup
      · simp [h1, hmap, h2]
      · simp [h1, hmap, h2]
  · intro x hx
    rcases List.mem_filterMap.mp hx with ⟨y, hy, hfy⟩
    split at hfy
    · injection hfy with h1
      exact h1 ▸ hy
    · split at hfy
      · injection hfy with h1
        exact h1 ▸ hy
      · exact Option.noConfusion hfy
  · intro freqs hne hnan
    cases freqs with
    | nil => exact absurd rfl hne
    | cons f fs =>
      obtain ⟨pre, post, hdec, hple, hplt⟩ := pyMaxPair_spec fs f hnan
      exact ⟨(pyMaxPair f fs).2, pre, post, hdec, hple, hplt⟩

/-- Closed instance of `find_unique_fixed_alleles_spec`. -/
theorem find_unique_fixed_alleles_spec_witness :
    ((("1", (100:ℤ)), [("A", [("A", PFloat.val 1), ("T", PFloat.val 0)]),
                       ("B", [("A", PFloat.val 0), ("T", PFloat.val 1)])]) :
      Locus × List (String × FreqMap)) ∈
    find_unique_fixed_alleles
      [(("1", 100), [("A", [("A", PFloat.val 1), ("T", PFloat.val 0)]),
                     ("B", [("A", PFloat.val 0), ("T", PFloat.val 1)])])] :=
  ((find_unique_fixed_alleles_spec
      [(("1", 100), [("A", [("A", PFloat.val 1), ("T", PFloat.val 0)]),
                     ("B", [("A", PFloat.val 0), ("T", PFloat.val 1)])])]
      (by decide) (by decide)).1 _ _ (by decide)).mpr (Or.inr (by decide))

/-- Length of a guarded `filterMap` is the count of elements passing the
guard. -/
theorem length_filterMap_guard {α β : Type} (p : α → Bool) (g : α → β)
    (l : List α) :
    (l.filterMap (fun a => if p a then some (g a) else none)).length
      = l.countP p := by
  induction l with
  | nil => rfl
  | cons a as ih =>
    rw [List.filterMap_cons, List.countP_cons]
    cases h : p a with
    | false => simp [h, ih]
    | true => simp [h, ih]

/-- `genotyped_clades` has one entry per clade with `perc_genotyped > 0`. -/
theorem length_genotypedClades (cd : List (String × CladeRec)) :
    (genotypedClades cd).length = cd.countP (fun c => decide (0 < c.2.1)) := by
  unfold genotypedClades
  exact length_filterMap_guard _ (fun c => (c.1, c.2.1)) cd

/-- `missing_clades` has one entry per clade with `perc_genotyped == 0`. -/
theorem length_missingClades (cd : List (String × CladeRec)) :
    (missingClades cd).length = cd.countP (fun c => decide (c.2.1 = 0)) := by
  unfold missingClades
  exact length_filterMap_guard _ (fun c => c.1) cd

/-- Membership in `genotyped_clades`. -/
theorem mem_genotypedClades (cd : List (String × CladeRec)) (c : String)
    (p : ℚ) :
    (c, p) ∈ genotypedClades cd ↔ ∃ freqs, (c, (p, freqs)) ∈ cd ∧ 0 < p := by
  unfold genotypedClades
  rw [List.mem_filterMap]
  constructor
  · rintro ⟨⟨cn, pp, fr⟩, hmem, hif⟩
    split at hif
    · rename_i hpos
      injection hif with h1
      injection h1 with e1 e2
      subst e1; subst e2
      exact ⟨fr, hmem, by simpa using hpos⟩
    · exact Option.noConfusion hif
  · rintro ⟨freqs, hmem, hpos⟩
    exact ⟨(c, (p, freqs)), hmem, by simp [hpos]⟩

/-- C6: for every aggregated table (distinct locus keys), a locus is recorded
as a private site iff exactly one clade is genotyped (`perc_genotyped > 0`)
and at least one clade is missing (`perc_genotyped == 0`), the recorded value
being the single genotyped clade's name and fraction; it is recorded as
uniquely-missing iff more than one clade is genotyped and exactly one is
missing, the recorded value mapping each genotyped clade to its fraction; and
no locus is recorded in both outputs. -/
theorem find_private_sites_spec (t : Table) (hkeys : NodupKeys t) :
    ∀ l cd, (l, cd) ∈ t →
      (((∃ v, (l, v) ∈ (find_private_sites t).1) ↔
          (cd.countP (fun c => decide (0 < c.2.1)) = 1
           ∧ 0 < cd.countP (fun c => decide (c.2.1 = 0))))
       ∧ (∀ v, (l, v) ∈ (find_private_sites t).1 →
           ∃ freqs, (v.1, (v.2, freqs)) ∈ cd ∧ 0 < v.2)
       ∧ ((∃ m, (l, m) ∈ (find_private_sites t).2) ↔
          (1 < cd.countP (fun c => decide (0 < c.2.1))
           ∧ cd.countP (fun c => decide (c.2.1 = 0)) = 1))
       ∧ (∀ m, (l, m) ∈ (find_private_sites t).2 →
           ∀ c p, ((c, p) ∈ m ↔ ∃ freqs, (c, (p, freqs)) ∈ cd ∧ 0 < p))
       ∧ ¬ ((∃ v, (l, v) ∈ (find_private_sites t).1)
            ∧ (∃ m, (l, m) ∈ (find_private_sites t).2))) := by
  have hf1 : ∀ (x : Locus × List (String × CladeRec)) (y : Locus × (String × ℚ)),
      (if (genotypedClades x.2).length = 1 ∧ 0 < (missingClades x.2).length
       then some (x.1, (genotypedClades x.2).headD ("", 0)) else none) = some y →
      y.1 = x.1 := by
    intro x y h
    split at h
    · injection h with h1
      exact (congrArg Prod.fst h1).symm
    · exact Option.noConfusion h
  have hf2 : ∀ (x : Locus × List (String × CladeRec))
      (y : Locus × List (String × ℚ)),
      (if 1 < (genotypedClades x.2).length ∧ (missingClades x.2).length = 1
       then some (x.1, genotypedClades x.2) else none) = some y →
      y.1 = x.1 := by
    intro x y h
    split at h
    · injection h with h1
      exact (congrArg Prod.fst h1).symm
    · exact Option.noConfusion h
  intro l cd hcd
  have hps : ∀ v, (l, v) ∈ (find_private_sites t).1 ↔
      (if (genotypedClades cd).length = 1 ∧ 0 < (missingClades cd).length
       then some (l, (genotypedClades cd).headD ("", 0)) else none)
        = some (l, v) := by
    intro v
    exact mem_keyed_filterMap _ hf1 hkeys hcd
  have hums : ∀ m, (l, m) ∈ (find_private_sites t).2 ↔
      (if 1 < (genotypedClades cd).length ∧ (missingClades cd).length = 1
       then some (l, genotypedClades cd) else none) = some (l, m) := by
    intro m
    exact mem_keyed_filterMap _ hf2 hkeys hcd
  have hexps : (∃ v, (l, v) ∈ (find_private_sites t).1) ↔
      (cd.countP (fun c => decide (0 < c.2.1)) = 1
       ∧ 0 < cd.countP (fun c => decide (c.2.1 = 0))) := by
    rw [← length_genotypedClades, ← length_missingClades]
    constructor
    · rintro ⟨v, hv⟩
      have h := (hps v).mp hv
      split at h
      · rename_i hcond
        exact hcond
      · exact Option.noConfusion h
    · intro hcond
      exact ⟨(genotypedClades cd).headD ("", 0),
        (hps _).mpr (by rw [if_pos hcond])⟩
  have hexums : (∃ m, (l, m) ∈ (find_private_sites t).2) ↔
      (1 < cd.countP (fun c => decide (0 < c.2.1))
       ∧ cd.countP (fun c => decide (c.2.1 = 0)) = 1) := by
    rw [← length_genotypedClades, ← length_missingClades]
    constructor
    · rintro ⟨m, hm⟩
      have h := (hums m).mp hm
      split at h
      · rename_i hcond
        exact hcond
      · exact Option.noConfusion h
    · intro hcond
      exact ⟨genotypedClades cd, (hums _).mpr (by rw [if_pos hcond])⟩
  refine ⟨hexps, ?_, hexums, ?_, ?_⟩
  · intro v hv
    have h := (hps v).mp hv
    split at h
    · rename_i hcond
      injection h with h1
      injection h1 with e1 e2
      rcases List.length_eq_one.mp hcond.1 with ⟨a, ha⟩
      have hva : v = a := by rw [← e2, ha]; rfl
      have : (v.1, v.2) ∈ genotypedClades cd := by
        rw [ha, hva]
        simp
      exact (mem_genotypedClades cd v.1 v.2).mp this
    · exact Option.noConfusion h
  · intro m hm c p
    have h := (hums m).mp hm
    split at h
    · injection h with h1
      injection h1 with e1 e2
      rw [← e2]
      exact mem_genotypedClades cd c p
    · exact Option.noConfusion h
  · rintro ⟨h1, h2⟩
    have c1 := (hexps.mp h1).1
    have c2 := (hexums.mp h2).1
    rw [c1] at c2
    exact lt_irrefl 1 c2

/-- Closed instance of `find_private_sites_spec`. -/
theorem find_private_sites_spec_witness :
    (∃ v, ((("1", (100:ℤ)), v)) ∈ (find_private_sites
      [(("1", 100), [("A", (1, [])), ("B", (0, []))]),
       (("1", 200), [("A", (1, [])), ("B", (1, [])), ("C", (0, []))])]).1)
    ∧ (∃ m, ((("1", (200:ℤ)), m)) ∈ (find_private_sites
      [(("1", 100), [("A", (1, [])), ("B", (0, []))]),
       (("1", 200), [("A", (1, [])), ("B", (1, [])), ("C", (0, []))])]).2) :=
  ⟨((find_private_sites_spec
      [(("1", 100), [("A", (1, [])), ("B", (0, []))]),
       (("1", 200), [("A", (1, [])), ("B", (1, [])), ("C", (0, []))])]
      (by decide) ("1", 100) [("A", (1, [])), ("B", (0, []))] (by decide)).1).mpr
      (by decide),
   ((find_private_sites_spec
      [(("1", 100), [("A", (1, [])), ("B", (0, []))]),
       (("1", 200), [("A", (1, [])), ("B", (1, [])), ("C", (0, []))])]
      (by decide) ("1", 200) [("A", (1, [])), ("B", (1, [])), ("C", (0, []))]
      (by decide)).2.2.1).mpr (by decide)⟩

/-- Membership in `other_clades_alleles`: the allele is carried above
`error_tolerance` by some clade with a different name. -/
theorem mem_otherCladesAlleles (et : ℚ) (cd : List (String × CladeRec))
    (cn : String) (a : String) :
    a ∈ otherCladesAlleles et cd cn ↔
      ∃ c' p' freqs', (c', (p', freqs')) ∈ cd ∧ c' ≠ cn
        ∧ ∃ w, (a, w) ∈ freqs' ∧ PFloat.plt (PFloat.val et) w = true := by
  unfold otherCladesAlleles
  rw [List.mem_flatMap]
  constructor
  · rintro ⟨⟨c', p', freqs'⟩, ho, ha⟩
    rw [List.mem_filter] at ho
    rw [List.mem_map] at ha
    rcases ha with ⟨⟨an, w⟩, hw, he⟩
    rw [List.mem_filter] at hw
    exact ⟨c', p', freqs', ho.1, by simpa using ho.2, w, he ▸ hw.1, hw.2⟩
  · rintro ⟨c', p', freqs', hmem, hne, w, hw, hplt⟩
    exact ⟨(c', (p', freqs')), List.mem_filter.mpr ⟨hmem, by simpa using hne⟩,
      List.mem_map.mpr ⟨(a, w), List.mem_filter.mpr ⟨hw, hplt⟩, rfl⟩⟩

/-- Membership in `private_alleles_set` for one clade. -/
theorem mem_privateSet (et : ℚ) (cd : List (String × CladeRec))
    (c : String × CladeRec) (a : String) (v : PFloat × ℚ) :
    (a, v) ∈ privateSet et cd c ↔
      ((a, v.1) ∈ c.2.2 ∧ PFloat.plt (PFloat.val et) v.1 = true ∧ v.2 = c.2.1
       ∧ a ∉ otherCladesAlleles et cd c.1) := by
  unfold privateSet
  rw [List.mem_filterMap]
  constructor
  · rintro ⟨⟨an, w⟩, hmem, hif⟩
    rw [List.mem_filter] at hmem
    split at hif
    · exact Option.noConfusion hif
    · rename_i hnot
      injection hif with h1
      injection h1 with e1 e2
      subst e1
      subst e2
      exact ⟨hmem.1, hmem.2, rfl, hnot⟩
  · rintro ⟨hmem, hplt, hv2, hnot⟩
    refine ⟨(a, v.1), List.mem_filter.mpr ⟨hmem, hplt⟩, ?_⟩
    rw [if_neg hnot,
      show ((a, v.1).1, ((a, v.1).2, c.2.1)) = (a, (v.1, c.2.1)) from rfl,
      ← hv2]

/-- Membership in `private_alleles_at_pos` for one locus. -/
theorem mem_privateQuals (et : ℚ) (cd : List (String × CladeRec))
    (c : String) (as : List (String × (PFloat × ℚ))) :
    (c, as) ∈ privateQuals et cd ↔
      ∃ rec, (c, rec) ∈ cd ∧ as = privateSet et cd (c, rec) ∧ as ≠ [] := by
  unfold privateQuals
  rw [List.mem_filterMap]
  constructor
  · rintro ⟨⟨cn, rec⟩, hmem, hif⟩
    split at hif
    · exact Option.noConfusion hif
    · rename_i hne
      injection hif with h1
      injection h1 with e1 e2
      subst e1
      refine ⟨rec, hmem, e2.symm, ?_⟩
      rw [← e2]
      intro h
      exact hne (by simp [h])
  · rintro ⟨rec, hmem, has, hne⟩
    refine ⟨(c, rec), hmem, ?_⟩
    rw [if_neg, ← has]
    intro h
    exact hne (by rw [has]; exact List.isEmpty_iff.mp h)

/-- C2: for every aggregated table (distinct locus keys), the private-allele
classifier skips a locus entirely whenever some clade there has
`perc_genotyped` exactly 0 or a NaN frequency (first conjunct characterises
that condition); at every remaining locus an allele is reported for a clade
iff its frequency there strictly exceeds `error_tolerance` and no other clade
carries it with frequency strictly above `error_tolerance`, the output
recording the allele's frequency and the clade's `perc_genotyped`. -/
theorem identify_private_alleles_spec (t : Table) (et : ℚ)
    (hkeys : NodupKeys t) :
    (∀ cd : List (String × CladeRec), hasBadClade cd = true ↔
        ∃ c ∈ cd, c.2.1 = 0 ∨ ∃ af ∈ c.2.2, af.2.isnan = true)
    ∧ ∀ l cd, (l, cd) ∈ t →
      ((hasBadClade cd = true → ∀ pm, (l, pm) ∉ identify_private_alleles t et)
       ∧ (hasBadClade cd = false →
          ∀ c a v, ((∃ pm as, (l, pm) ∈ identify_private_alleles t et
              ∧ (c, as) ∈ pm ∧ (a, v) ∈ as) ↔
            (∃ p freqs, (c, (p, freqs)) ∈ cd ∧ (a, v.1) ∈ freqs
              ∧ PFloat.plt (PFloat.val et) v.1 = true ∧ v.2 = p
              ∧ ∀ c' p' freqs', (c', (p', freqs')) ∈ cd → c' ≠ c →
                  ∀ w, (a, w) ∈ freqs' →
                    PFloat.plt (PFloat.val et) w = false)))) := by
  have hf : ∀ (x : Locus × List (String × CladeRec))
      (y : Locus × List (String × List (String × (PFloat × ℚ)))),
      (if hasBadClade x.2 then none
       else if (privateQuals et x.2).isEmpty then none
       else some (x.1, privateQuals et x.2)) = some y → y.1 = x.1 := by
    intro x y h
    split at h
    · exact Option.noConfusion h
    · split at h
      · exact Option.noConfusion h
      · injection h with h1
        exact (congrArg Prod.fst h1).symm
  constructor
  · intro cd
    simp [hasBadClade, List.any_eq_true]
  intro l cd hcd
  constructor
  · intro hbad pm hpm
    have h := (mem_keyed_filterMap _ hf hkeys hcd).mp hpm
    split at h
    · exact Option.noConfusion h
    · rename_i hc
      exact hc (by simpa using hbad)
  · intro hgood c a v
    constructor
    · rintro ⟨pm, as, hpm, hcas, hav⟩
      have h := (mem_keyed_filterMap _ hf hkeys hcd).mp hpm
      split at h
      · exact Option.noConfusion h
      · split at h
        · exact Option.noConfusion h
        · injection h with h1
          injection h1 with e1 e2
          rw [← e2] at hcas
          obtain ⟨rec, hrec, has, hne⟩ := (mem_privateQuals et cd c as).mp hcas
          rw [has] at hav
          obtain ⟨hmem2, hplt, hv2, hnot⟩ :=
            (mem_privateSet et cd (c, rec) a v).mp hav
          refine ⟨rec.1, rec.2, by simpa using hrec, hmem2, hplt,
            by simpa using hv2, ?_⟩
          intro c' p' freqs' hmem' hne' w hw
          by_contra hcontra
          rw [Bool.not_eq_false] at hcontra
          exact hnot ((mem_otherCladesAlleles et cd (c, rec).1 a).mpr
            ⟨c', p', freqs', hmem', by simpa using hne', w, hw, hcontra⟩)
    · rintro ⟨p, freqs, hmem, haf, hplt, hv2, hother⟩
      have hnot : a ∉ otherCladesAlleles et cd c := by
        intro hmemO
        obtain ⟨c', p', freqs', hm', hne', w, hw, hpltw⟩ :=
          (mem_otherCladesAlleles et cd c a).mp hmemO
        rw [hother c' p' freqs' hm' hne' w hw] at hpltw
        exact Bool.noConfusion hpltw
      have hav : (a, v) ∈ privateSet et cd (c, (p, freqs)) :=
        (mem_privateSet et cd (c, (p, freqs)) a v).mpr ⟨haf, hplt, hv2, hnot⟩
      have hcas : (c, privateSet et cd (c, (p, freqs))) ∈ privateQuals et cd :=
        (mem_privateQuals et cd c _).mpr
          ⟨(p, freqs), hmem, rfl, List.ne_nil_of_mem hav⟩
      refine ⟨privateQuals et cd, privateSet et cd (c, (p, freqs)), ?_, hcas, hav⟩
      rw [show identify_private_alleles t et = t.filterMap _ from rfl,
        mem_keyed_filterMap _ hf hkeys hcd]
      dsimp only
      rw [if_neg (by simp [hgood]), if_neg (by
        simp only [List.isEmpty_iff]
        exact List.ne_nil_of_mem hcas)]

/-- Closed instance of `identify_private_alleles_spec`. -/
theorem identify_private_alleles_spec_witness :
    ∃ p freqs,
      ("A", (p, freqs)) ∈
        [("A", ((1:ℚ), [("X", PFloat.val 1), ("Y", PFloat.val 0)])),
         ("B", ((1:ℚ), [("Y", PFloat.val 1)]))]
      ∧ ("X", (PFloat.val 1, (1:ℚ)).1) ∈ freqs
      ∧ PFloat.plt (PFloat.val 0) (PFloat.val 1, (1:ℚ)).1 = true
      ∧ (PFloat.val 1, (1:ℚ)).2 = p
      ∧ ∀ c' p' freqs',
          (c', (p', freqs')) ∈
            [("A", ((1:ℚ), [("X", PFloat.val 1), ("Y", PFloat.val 0)])),
             ("B", ((1:ℚ), [("Y", PFloat.val 1)]))] →
          c' ≠ "A" → ∀ w, ("X", w) ∈ freqs' →
            PFloat.plt (PFloat.val 0) w = false :=
  (((identify_private_alleles_spec
      [(("1", 100), [("A", (1, [("X", PFloat.val 1), ("Y", PFloat.val 0)])),
                     ("B", (1, [("Y", PFloat.val 1)]))])] 0 (by decide)).2
    ("1", 100)
    [("A", (1, [("X", PFloat.val 1), ("Y", PFloat.val 0)])),
     ("B", (1, [("Y", PFloat.val 1)]))] (by decide)).2 (by decide)
    "A" "X" (PFloat.val 1, 1)).mp
    ⟨[("A", [("X", (PFloat.val 1, 1))]), ("B", [("Y", (PFloat.val 1, 1))])],
     [("X", (PFloat.val 1, 1))], by decide, by decide, by decide⟩

/-- A successful `alookup` returns a stored pair. -/
theorem alookup_mem {κ α : Type} [DecidableEq κ] {m : List (κ × α)} {k : κ}
    {w : α} (h : alookup m k = some w) : (k, w) ∈ m := by
  induction m with
  | nil => exact Option.noConfusion h
  | cons p ps ih =>
    unfold alookup at h
    split at h
    · rename_i heq
      injection h with h1
      rw [← heq, ← h1]
      simp
    · simp [ih h]

/-- Python `max` over non-NaN floats is the mathematical maximum. -/
theorem pymax1_eq_val (x : PFloat) (xs : List PFloat) (hx : x.isnan = false)
    (hxs : ∀ y ∈ xs, y.isnan = false) :
    pymax1 x xs = PFloat.val (specMaxQ x.toRatD (xs.map PFloat.toRatD)) := by
  induction xs generalizing x with
  | nil =>
    obtain ⟨q, rfl⟩ := PFloat.exists_val_of_isnan_eq_false hx
    rfl
  | cons y ys ih =>
    obtain ⟨q, rfl⟩ := PFloat.exists_val_of_isnan_eq_false hx
    obtain ⟨r, hy⟩ := PFloat.exists_val_of_isnan_eq_false (hxs y (by simp))
    subst hy
    have hstep : pymax1 (PFloat.val q) (PFloat.val r :: ys)
        = pymax1 (PFloat.val (max q r)) ys := by
      unfold pymax1
      rw [List.foldl_cons]
      congr 1
      by_cases h : q < r
      · simp [PFloat.plt, h, max_eq_right h.le]
      · simp [PFloat.plt, h, max_eq_left (not_lt.mp h)]
    rw [hstep, ih (PFloat.val (max q r)) rfl (fun y hy => hxs y (by simp [hy]))]
    rfl

/-- Python `min` over non-NaN floats is the mathematical minimum. -/
theorem pymin1_eq_val (x : PFloat) (xs : List PFloat) (hx : x.isnan = false)
    (hxs : ∀ y ∈ xs, y.isnan = false) :
    pymin1 x xs = PFloat.val (specMinQ x.toRatD (xs.map PFloat.toRatD)) := by
  induction xs generalizing x with
  | nil =>
    obtain ⟨q, rfl⟩ := PFloat.exists_val_of_isnan_eq_false hx
    rfl
  | cons y ys ih =>
    obtain ⟨q, rfl⟩ := PFloat.exists_val_of_isnan_eq_false hx
    obtain ⟨r, hy⟩ := PFloat.exists_val_of_isnan_eq_false (hxs y (by simp))
    subst hy
    have hstep : pymin1 (PFloat.val q) (PFloat.val r :: ys)
        = pymin1 (PFloat.val (min q r)) ys := by
      unfold pymin1
      rw [List.foldl_cons]
      congr 1
      by_cases h : r < q
      · simp [PFloat.plt, h, min_eq_right h.le]
      · simp [PFloat.plt, h, min_eq_left (not_lt.mp h)]
    rw [hstep, ih (PFloat.val (min q r)) rfl (fun y hy => hxs y (by simp [hy]))]
    rfl

/-- All per-clade frequencies of an allele are non-NaN when the table's
frequencies are. -/
theorem alleleFreqsAcross_nonan (cf : List CladeRec) (a : String)
    (hnan : ∀ c ∈ cf, ∀ af ∈ c.2, af.2.isnan = false) :
    ∀ y ∈ alleleFreqsAcross cf a, y.isnan = false := by
  intro y hy
  unfold alleleFreqsAcross at hy
  rw [List.mem_map] at hy
  obtain ⟨c, hc, he⟩ := hy
  subst he
  cases halk : alookup c.2 a with
  | none => simp [halk]
  | some w =>
    exact hnan c hc (a, w) (alookup_mem halk)

/-- One allele's contribution to `max_diff` equals its spec-side spread. -/
theorem spread_term_eq (cf : List CladeRec) (a : String) (hne : cf ≠ [])
    (hnan : ∀ c ∈ cf, ∀ af ∈ c.2, af.2.isnan = false) :
    PFloat.psub (pymaxD (alleleFreqsAcross cf a))
        (pyminD (alleleFreqsAcross cf a))
      = PFloat.val (specSpread cf a) := by
  have hfa := alleleFreqsAcross_nonan cf a hnan
  cases hcf : alleleFreqsAcross cf a with
  | nil =>
    exfalso
    apply hne
    have := congrArg List.length hcf
    unfold alleleFreqsAcross at this
    rw [List.length_map] at this
    exact List.length_eq_zero.mp this
  | cons x xs =>
    rw [hcf] at hfa
    have hx : x.isnan = false := hfa x (by simp)
    have hxs : ∀ y ∈ xs, y.isnan = false := fun y hy => hfa y (by simp [hy])
    rw [show pymaxD (x :: xs) = pymax1 x xs from rfl,
      show pyminD (x :: xs) = pymin1 x xs from rfl,
      pymax1_eq_val x xs hx hxs, pymin1_eq_val x xs hx hxs]
    unfold specSpread
    rw [hcf, List.map_cons]
    rfl

/-- Folding `padd` of non-NaN terms over a list sums the underlying
rationals. -/
theorem foldl_padd_eq (as : List String) (f : String → PFloat)
    (fq : String → ℚ) (hf : ∀ a ∈ as, f a = PFloat.val (fq a)) (i : ℚ) :
    as.foldl (fun acc a => PFloat.padd acc (f a)) (PFloat.val i)
      = PFloat.val (i + (as.map fq).sum) := by
  induction as generalizing i with
  | nil => simp
  | cons a rest ih =>
    rw [List.foldl_cons, hf a (by simp), PFloat.padd_val,
      ih (fun b hb => hf b (by simp [hb])), List.map_cons, List.sum_cons,
      add_assoc]

/-- `max_diff` of a NaN-free locus with at least one clade record is the
spec-side sum of per-allele spreads. -/
theorem maxDiff_eq (cf : List CladeRec) (hne : cf ≠ [])
    (hnan : ∀ c ∈ cf, ∀ af ∈ c.2, af.2.isnan = false) :
    maxDiff cf = PFloat.val (((allAllelesSet cf).map (specSpread cf)).sum) := by
  unfold maxDiff
  rw [foldl_padd_eq (allAllelesSet cf) _ (specSpread cf)
    (fun a _ => spread_term_eq cf a hne hnan), zero_add]

/-- C4: for every aggregated table (distinct locus keys, NaN-free
frequencies), the divergence scorer has an entry for a locus iff the locus
has at least two clade records, and that entry pairs the sum, over the union
of alleles seen at the locus, of (maximum frequency across clades minus
minimum frequency across clades, absent alleles counting as 0) with the
arithmetic mean of `perc_genotyped` over the clades present. -/
theorem compute_divergence_scores_spec (t : Table) (hkeys : NodupKeys t)
    (hnan : ∀ e ∈ t, ∀ c ∈ e.2, ∀ af ∈ c.2.2, af.2.isnan = false) :
    ∀ l cd, (l, cd) ∈ t →
      (((∃ v, (l, v) ∈ compute_divergence_scores t) ↔ 2 ≤ cd.length)
       ∧ ∀ v, (l, v) ∈ compute_divergence_scores t →
           v = (PFloat.val (((allAllelesSet (cd.map Prod.snd)).map
                   (specSpread (cd.map Prod.snd))).sum),
                (cd.map (fun c => c.2.1)).sum / cd.length)) := by
  have hf : ∀ (x : Locus × List (String × CladeRec)) (y : Locus × (PFloat × ℚ)),
      (if (x.2.map Prod.snd).length < 2 then none
       else some (x.1, (maxDiff (x.2.map Prod.snd), avgGenotyped (x.2.map Prod.snd))))
        = some y → y.1 = x.1 := by
    intro x y h
    split at h
    · exact Option.noConfusion h
    · injection h with h1
      exact (congrArg Prod.fst h1).symm
  intro l cd hcd
  have hmem : ∀ v, (l, v) ∈ compute_divergence_scores t ↔
      (if (cd.map Prod.snd).length < 2 then none
       else some (l, (maxDiff (cd.map Prod.snd), avgGenotyped (cd.map Prod.snd))))
        = some (l, v) := by
    intro v
    exact mem_keyed_filterMap _ hf hkeys hcd
  constructor
  · constructor
    · rintro ⟨v, hv⟩
      have h := (hmem v).mp hv
      split at h
      · exact Option.noConfusion h
      · rename_i hc
        rw [List.length_map] at hc
        omega
    · intro h2
      refine ⟨(maxDiff (cd.map Prod.snd), avgGenotyped (cd.map Prod.snd)),
        (hmem _).mpr ?_⟩
      rw [if_neg (by rw [List.length_map]; omega)]
  · intro v hv
    have h := (hmem v).mp hv
    split at h
    · exact Option.noConfusion h
    · rename_i hc
      rw [List.length_map] at hc
      injection h with h1
      injection h1 with e1 e2
      rw [← e2]
      have hne : cd.map Prod.snd ≠ [] := by
        intro hnil
        have := congrArg List.length hnil
        rw [List.length_map, List.length_nil] at this
        omega
      have hnan' : ∀ c ∈ cd.map Prod.snd, ∀ af ∈ c.2, af.2.isnan = false := by
        intro c hc' af haf
        rw [List.mem_map] at hc'
        obtain ⟨cc, hcc, he⟩ := hc'
        subst he
        exact hnan (l, cd) hcd cc hcc af haf
      rw [maxDiff_eq (cd.map Prod.snd) hne hnan']
      unfold avgGenotyped
      rw [List.map_map, List.length_map]
      rfl


/-- Closed instance of `compute_divergence_scores_spec` (the worked example
of the spec: clades fixed on opposite alleles give score 2). -/
theorem compute_divergence_scores_spec_witness :
    ((PFloat.val 2, (1:ℚ)) : PFloat × ℚ)
      = (PFloat.val (((allAllelesSet (twoCladeExample.map Prod.snd)).map
            (specSpread (twoCladeExample.map Prod.snd))).sum),
         (twoCladeExample.map (fun c => c.2.1)).sum / twoCladeExample.length) :=
  ((compute_divergence_scores_spec [(("1", 100), twoCladeExample)]
      (by decide) (by decide) ("1", 100) twoCladeExample (by decide)).2
    (PFloat.val 2, 1) (by decide))

/-- C8 counterexample: a locus whose two clades have identical
allele-frequency maps containing NaN — reachable from real `.frq` input via
`process_files`, since `vcftools` writes `-nan` frequencies — gets divergence
score NaN, not 0. -/
theorem divergence_identical_maps_counterexample :
    process_files
      [({ path := "A.frq",
          header := ["CHROM", "POS", "N_ALLELES", "N_CHR", "\x7bALLELE:FREQ\x7d"],
          rows := [["1", "100", "1", "10", "X:-nan"]] }, 5),
       ({ path := "B.frq",
          header := ["CHROM", "POS", "N_ALLELES", "N_CHR", "\x7bALLELE:FREQ\x7d"],
          rows := [["1", "100", "1", "10", "X:-nan"]] }, 5)]
      = .ok [(("1", 100), [("A", (1, [("X", PFloat.nan)])),
                           ("B", (1, [("X", PFloat.nan)]))])]
    ∧ compute_divergence_scores
        [(("1", 100), [("A", (1, [("X", PFloat.nan)])),
                       ("B", (1, [("X", PFloat.nan)]))])]
      = [(("1", 100), (PFloat.nan, 1))]
    ∧ PFloat.nan ≠ PFloat.val 0 :=
  ⟨by decide, by decide, by decide⟩

/-- C8 (amended): for every locus whose record is exactly two clades with
identical NaN-free allele-frequency maps, the divergence score is exactly 0
(and the mean genotyped fraction is the average of the two). -/
theorem divergence_identical_nanfree_zero (l : Locus) (c1 c2 : String)
    (p1 p2 : ℚ) (freqs : FreqMap)
    (hnan : ∀ af ∈ freqs, af.2.isnan = false) :
    compute_divergence_scores [(l, [(c1, (p1, freqs)), (c2, (p2, freqs))])]
      = [(l, (PFloat.val 0, (p1 + p2) / 2))] := by
  have hnan' : ∀ c ∈ ([(p1, freqs), (p2, freqs)] : List CladeRec),
      ∀ af ∈ c.2, af.2.isnan = false := by
    intro c hc af haf
    rcases List.mem_cons.mp hc with heq | hc2
    · subst heq
      exact hnan af haf
    · rcases List.mem_cons.mp hc2 with heq | hc3
      · subst heq
        exact hnan af haf
      · cases hc3
  have hmd : maxDiff [(p1, freqs), (p2, freqs)] = PFloat.val 0 := by
    rw [maxDiff_eq _ (by simp) hnan']
    congr 1
    apply List.sum_eq_zero
    intro x hx
    rw [List.mem_map] at hx
    obtain ⟨a, _, he⟩ := hx
    rw [← he]
    show max (((alookup freqs a).getD (PFloat.val 0)).toRatD)
          (((alookup freqs a).getD (PFloat.val 0)).toRatD)
        - min (((alookup freqs a).getD (PFloat.val 0)).toRatD)
          (((alookup freqs a).getD (PFloat.val 0)).toRatD) = 0
    rw [max_self, min_self, sub_self]
  have hav : avgGenotyped [(p1, freqs), (p2, freqs)] = (p1 + p2) / 2 := by
    unfold avgGenotyped
    simp
  simp only [compute_divergence_scores, List.filterMap_cons, List.filterMap_nil,
    List.map_cons, List.map_nil, List.length_cons, List.length_nil]
  rw [if_neg (by omega)]
  rw [hmd, hav]

/-- Closed instance of `divergence_identical_nanfree_zero`. -/
theorem divergence_identical_nanfree_zero_witness :
    compute_divergence_scores
      [(("1", (100:ℤ)), [("A", (1, [("X", PFloat.val 1)])),
                         ("B", (1, [("X", PFloat.val 1)]))])]
      = [(("1", 100), (PFloat.val 0, ((1:ℚ) + 1) / 2))] :=
  divergence_identical_nanfree_zero ("1", 100) "A" "B" 1 1
    [("X", PFloat.val 1)] (by decide)

/-- C5: the top-divergent selector first removes NaN scores, returns exactly
`min n (number of non-NaN entries)` entries, sorted descending by the score
rounded to 6 decimal places; entries with equal rounded scores keep their
original order (stability), and every returned entry's key is at least that
of every non-NaN entry left out. -/
theorem write_most_divergent_loci_spec (d : List (Locus × (PFloat × ℚ)))
    (n : ℕ) :
    (write_most_divergent_loci d n).length = min n (filtered_scores d).length
    ∧ (∀ x ∈ write_most_divergent_loci d n, x ∈ d ∧ x.2.1.isnan = false)
    ∧ List.Pairwise (fun a b => sortKey b ≤ sortKey a)
        (write_most_divergent_loci d n)
    ∧ (∀ a b, sortKey a = sortKey b →
        List.Sublist [a, b] (filtered_scores d) →
        List.Sublist [a, b] (sorted_loci d))
    ∧ (∀ x ∈ write_most_divergent_loci d n, ∀ y ∈ filtered_scores d,
        y ∉ write_most_divergent_loci d n → sortKey y ≤ sortKey x) := by
  have hperm : List.Perm (sorted_loci d) (filtered_scores d) :=
    List.perm_insertionSort descByKey (filtered_scores d)
  have hsorted : List.Pairwise descByKey (sorted_loci d) :=
    List.sorted_insertionSort descByKey (filtered_scores d)
  have hmemf : ∀ x ∈ filtered_scores d, x ∈ d ∧ x.2.1.isnan = false := by
    intro x hx
    unfold filtered_scores at hx
    rw [List.mem_filter] at hx
    exact ⟨hx.1, by simpa using hx.2⟩
  refine ⟨?_, ?_, ?_, ?_, ?_⟩
  · unfold write_most_divergent_loci
    rw [List.length_take, hperm.length_eq]
  · intro x hx
    exact hmemf x (hperm.mem_iff.mp (List.mem_of_mem_take hx))
  · have hsub : List.Sublist (write_most_divergent_loci d n) (sorted_loci d) :=
      List.take_sublist n (sorted_loci d)
    exact List.Pairwise.sublist hsub hsorted
  · intro a b hkey hab
    exact List.pair_sublist_insertionSort (le_of_eq hkey.symm) hab
  · intro x hx y hy hyn
    have hsplit := hsorted
    rw [← List.take_append_drop n (sorted_loci d)] at hsplit
    have hysorted : y ∈ sorted_loci d := hperm.mem_iff.mpr hy
    rw [← List.take_append_drop n (sorted_loci d)] at hysorted
    rcases List.mem_append.mp hysorted with h1 | h2
    · exact absurd h1 hyn
    · exact (List.pairwise_append.mp hsplit).2.2 x hx y h2

/-- Closed instance of `write_most_divergent_loci_spec`. -/
theorem write_most_divergent_loci_spec_witness :
    ((("1", (300:ℤ)), (PFloat.val 2, (1:ℚ))) ∈
        [(("1", (100:ℤ)), (PFloat.val 1, (1:ℚ))),
         (("1", 200), (PFloat.nan, 1)), (("1", 300), (PFloat.val 2, 1))]
      ∧ (PFloat.val 2).isnan = false)
    ∧ (write_most_divergent_loci
        [(("1", (100:ℤ)), (PFloat.val 1, (1:ℚ))),
         (("1", 200), (PFloat.nan, 1)), (("1", 300), (PFloat.val 2, 1))] 5).length
      = min 5 (filtered_scores
        [(("1", (100:ℤ)), (PFloat.val 1, (1:ℚ))),
         (("1", 200), (PFloat.nan, 1)), (("1", 300), (PFloat.val 2, 1))]).length :=
  ⟨(write_most_divergent_loci_spec
      [(("1", (100:ℤ)), (PFloat.val 1, (1:ℚ))),
       (("1", 200), (PFloat.nan, 1)), (("1", 300), (PFloat.val 2, 1))] 5).2.1
      (("1", (300:ℤ)), (PFloat.val 2, (1:ℚ))) (by decide),
   (write_most_divergent_loci_spec
      [(("1", (100:ℤ)), (PFloat.val 1, (1:ℚ))),
       (("1", 200), (PFloat.nan, 1)), (("1", 300), (PFloat.val 2, 1))] 5).1⟩

/-- Appending to a fixed prefix is injective on strings. -/
theorem string_append_cancel_left {o s1 s2 : String} (h : o ++ s1 = o ++ s2) :
    s1 = s2 := by
  have hd := congrArg String.data h
  rw [String.data_append, String.data_append] at hd
  exact String.ext (List.append_cancel_left hd)

/-- C9: `main` writes the uniquely-missing-sites file iff more than two
`(file, n_indv)` pairs — clades — are supplied; with two or fewer, exactly
the other five output files are written. -/
theorem output_files_spec (k : ℕ) (out_name : String) :
    ((out_name ++ "_uniquely_missing_sites.txt") ∈ output_files k out_name
      ↔ 2 < k)
    ∧ (¬ 2 < k → output_files k out_name
        = [out_name ++ "_most_divergent_loci.txt",
           out_name ++ "_fixed_alleles.txt",
           out_name ++ "_unique_fixed_alleles.txt",
           out_name ++ "_private_alleles.txt",
           out_name ++ "_private_sites.txt"]) := by
  constructor
  · constructor
    · intro hmem
      by_contra h
      rw [output_files, if_neg h, List.append_nil] at hmem
      rcases List.mem_cons.mp hmem with h1 | hmem
      · exact absurd (string_append_cancel_left h1) (by decide)
      rcases List.mem_cons.mp hmem with h2 | hmem
      · exact absurd (string_append_cancel_left h2) (by decide)
      rcases List.mem_cons.mp hmem with h3 | hmem
      · exact absurd (string_append_cancel_left h3) (by decide)
      rcases List.mem_cons.mp hmem with h4 | hmem
      · exact absurd (string_append_cancel_left h4) (by decide)
      rcases List.mem_cons.mp hmem with h5 | hmem
      · exact absurd (string_append_cancel_left h5) (by decide)
      · cases hmem
    · intro h
      rw [output_files, if_pos h]
      exact List.mem_append_right _ (by simp)
  · intro h
    rw [output_files, if_neg h, List.append_nil]

/-- Closed instance of `output_files_spec`. -/
theorem output_files_spec_witness :
    (("out" ++ "_uniquely_missing_sites.txt") ∈ output_files 3 "out")
    ∧ output_files 2 "out"
      = ["out" ++ "_most_divergent_loci.txt",
         "out" ++ "_fixed_alleles.txt",
         "out" ++ "_unique_fixed_alleles.txt",
         "out" ++ "_private_alleles.txt",
         "out" ++ "_private_sites.txt"] :=
  ⟨(output_files_spec 3 "out").1.mpr (by decide),
   (output_files_spec 2 "out").2 (by decide)⟩

/-- C7 counterexample: the aggregator does not fail "whenever the
expected_individual_count for a file is zero" — with zero count and no data
rows it succeeds, because the division of line 38 only runs per data row; and
when a data row is present a zero count surfaces as an unguarded
`ZeroDivisionError` (the script defines no `MalformedRecordError`). -/
theorem process_files_malformed_counterexample :
    process_files
      [({ path := "A.frq",
          header := ["CHROM", "POS", "N_ALLELES", "N_CHR", "\x7bALLELE:FREQ\x7d"],
          rows := [] }, 0)] = .ok []
    ∧ process_files
      [({ path := "A.frq",
          header := ["CHROM", "POS", "N_ALLELES", "N_CHR", "\x7bALLELE:FREQ\x7d"],
          rows := [["1", "100", "1", "10", "A:1"]] }, 0)]
      = .error PyExn.zeroDivisionError :=
  ⟨by decide, by decide⟩

/-- A data row processed with `expected_individual_count = 0` never succeeds:
every successful path of lines 24–39 passes through the division of line 38. -/
theorem processRow_zero_not_ok (header : List String) (clade : String)
    (t : Table) (row : List String) (t' : Table) :
    processRow header clade 0 t row ≠ Except.ok t' := by
  intro hok
  unfold processRow at hok
  simp only [bind, Except.bind] at hok
  iterate 30 (all_goals (try split at hok))
  all_goals simp_all

/-- A file with at least one data row and `expected_individual_count = 0`
never folds to a table. -/
theorem foldlM_processRow_zero_not_ok (header : List String) (clade : String)
    (rows : List (List String)) (t t' : Table) (hne : rows ≠ []) :
    rows.foldlM (processRow header clade 0) t ≠ Except.ok t' := by
  intro hok
  cases rows with
  | nil => exact hne rfl
  | cons r rs =>
    rw [List.foldlM_cons] at hok
    cases hpr : processRow header clade 0 t r with
    | error e =>
      rw [hpr] at hok
      simp [bind, Except.bind] at hok
    | ok t2 => exact processRow_zero_not_ok header clade t r t2 hpr

/-- A successful aggregation run never contained a file with data rows and a
zero `expected_individual_count` (stated over the fold from any accumulator). -/
theorem process_files_go_no_zero :
    ∀ (fl : List (FrqFile × ℤ)) (acc t : Table),
    fl.foldlM (fun t f =>
      f.1.rows.foldlM (processRow f.1.header (cladeNameOf f.1.path) f.2) t) acc
      = Except.ok t →
    ∀ p ∈ fl, p.1.rows ≠ [] → p.2 ≠ 0 := by
  intro fl
  induction fl with
  | nil =>
    intro acc t _ p hp
    cases hp
  | cons q qs ih =>
    intro acc t hok p hp hrows hzero
    rw [List.foldlM_cons] at hok
    cases hq : q.1.rows.foldlM (processRow q.1.header (cladeNameOf q.1.path) q.2) acc with
    | error e =>
      rw [hq] at hok
      simp [bind, Except.bind] at hok
    | ok t1 =>
      rw [hq] at hok
      simp only [bind, Except.bind] at hok
      rcases List.mem_cons.mp hp with heq | hp2
      · subst heq
        rw [hzero] at hq
        exact foldlM_processRow_zero_not_ok p.1.header (cladeNameOf p.1.path)
          p.1.rows acc t1 hrows hq
      · exact ih t1 t hok p hp2 hrows hzero

/-- With a well-formed `.frq` header and a row whose `POS` parses, an
unparseable `N_ALLELES` field surfaces as `ValueError`, for every row
content. -/
theorem badNAlleles_valueError (clade : String) (n : ℤ) (t : Table)
    (chrom posStr nAllStr nChrStr : String) (cells : List String) (P : ℤ)
    (hpos : pyInt posStr = some P) (hnall : pyInt nAllStr = none) :
    processRow frqHeader clade n t ([chrom, posStr, nAllStr, nChrStr] ++ cells)
      = Except.error PyExn.valueError := by
  unfold processRow
  simp only [bind, Except.bind,
    show headerIndex frqHeader "CHROM" = Except.ok 0 from rfl,
    show headerIndex frqHeader "POS" = Except.ok 1 from rfl,
    show headerIndex frqHeader "N_ALLELES" = Except.ok 2 from rfl,
    show rowGet ([chrom, posStr, nAllStr, nChrStr] ++ cells) 0
      = Except.ok chrom from rfl,
    show rowGet ([chrom, posStr, nAllStr, nChrStr] ++ cells) 1
      = Except.ok posStr from rfl,
    show rowGet ([chrom, posStr, nAllStr, nChrStr] ++ cells) 2
      = Except.ok nAllStr from rfl,
    hpos, hnall]

/-- With a well-formed `.frq` header, numeric fields that parse, and one
allele cell splitting into `allele:freq` with an unparseable `freq`, the row
fails with `ValueError`, for every such cell. -/
theorem badFreq_valueError (clade : String) (n : ℤ) (t : Table)
    (chrom posStr nChrStr cell : String) (P C : ℤ) (aCs fCs : List Char)
    (hpos : pyInt posStr = some P) (hnchr : pyInt nChrStr = some C)
    (hsplit : splitOnChar ':' cell.toList = [aCs, fCs])
    (hfloat : pyFloat (String.mk fCs) = none) :
    processRow frqHeader clade n t [chrom, posStr, "1", nChrStr, cell]
      = Except.error PyExn.valueError := by
  unfold processRow
  simp only [bind, Except.bind,
    show headerIndex frqHeader "CHROM" = Except.ok 0 from rfl,
    show headerIndex frqHeader "POS" = Except.ok 1 from rfl,
    show headerIndex frqHeader "N_ALLELES" = Except.ok 2 from rfl,
    show headerIndex frqHeader "N_CHR" = Except.ok 3 from rfl,
    show headerIndex frqHeader "\x7bALLELE:FREQ\x7d" = Except.ok 4 from rfl,
    show rowGet [chrom, posStr, "1", nChrStr, cell] 0 = Except.ok chrom from rfl,
    show rowGet [chrom, posStr, "1", nChrStr, cell] 1 = Except.ok posStr from rfl,
    show rowGet [chrom, posStr, "1", nChrStr, cell] 2 = Except.ok "1" from rfl,
    show rowGet [chrom, posStr, "1", nChrStr, cell] 3 = Except.ok nChrStr from rfl,
    show pyInt "1" = some 1 from rfl,
    hpos, hnchr]
  rw [show Int.toNat 1 = 1 from rfl]
  unfold readAlleles
  simp only [bind, Except.bind,
    show List.range 1 = [0] from rfl, List.foldlM_cons, List.foldlM_nil,
    show rowGet [chrom, posStr, "1", nChrStr, cell] (4 + 0)
      = Except.ok cell from rfl,
    hsplit, hfloat]

/-- With a well-formed `.frq` header and a data row whose fields all parse, a
zero `expected_individual_count` surfaces as `ZeroDivisionError`, for every
such row. -/
theorem zeroCount_zeroDivisionError (clade : String) (t : Table)
    (chrom posStr nAllStr nChrStr : String) (cells : List String)
    (P A C : ℤ) (m : FreqMap)
    (hpos : pyInt posStr = some P) (hnall : pyInt nAllStr = some A)
    (hnchr : pyInt nChrStr = some C)
    (hra : readAlleles ([chrom, posStr, nAllStr, nChrStr] ++ cells) 4 A.toNat
      = Except.ok m) :
    processRow frqHeader clade 0 t ([chrom, posStr, nAllStr, nChrStr] ++ cells)
      = Except.error PyExn.zeroDivisionError := by
  have hr0 : rowGet ([chrom, posStr, nAllStr, nChrStr] ++ cells) 0
      = Except.ok chrom := rfl
  have hr1 : rowGet ([chrom, posStr, nAllStr, nChrStr] ++ cells) 1
      = Except.ok posStr := rfl
  have hr2 : rowGet ([chrom, posStr, nAllStr, nChrStr] ++ cells) 2
      = Except.ok nAllStr := rfl
  have hr3 : rowGet ([chrom, posStr, nAllStr, nChrStr] ++ cells) 3
      = Except.ok nChrStr := by simp [rowGet]
  unfold processRow
  simp only [bind, Except.bind,
    show headerIndex frqHeader "CHROM" = Except.ok 0 from rfl,
    show headerIndex frqHeader "POS" = Except.ok 1 from rfl,
    show headerIndex frqHeader "N_ALLELES" = Except.ok 2 from rfl,
    show headerIndex frqHeader "N_CHR" = Except.ok 3 from rfl,
    show headerIndex frqHeader "\x7bALLELE:FREQ\x7d" = Except.ok 4 from rfl,
    hr0, hr1, hr2, hr3, hpos, hnall, hnchr, hra]
  simp

/-- A file with no data rows succeeds even with a zero
`expected_individual_count`: the division of line 38 never runs. -/
theorem headerOnly_zero_ok (f : FrqFile) (n : ℤ) (h : f.rows = []) :
    process_files [(f, n)] = Except.ok [] := by
  simp [process_files, h, bind, Except.bind, pure, Except.pure]

/-- C7 (amended): for every input, an unparseable allele-count or frequency
field fails the run with a `ValueError` (the script defines no
`MalformedRecordError`), a zero `expected_individual_count` fails with an
unguarded `ZeroDivisionError` as soon as a data row is reached, a file with
no data rows succeeds even with a zero count, and a successful run never
processed a file with data rows and zero count — so the division of line 38
never silently produces an infinity or NaN. -/
theorem process_files_error_modes :
    (∀ (file_list : List (FrqFile × ℤ)) (t : Table),
        process_files file_list = Except.ok t →
        ∀ p ∈ file_list, p.1.rows ≠ [] → p.2 ≠ 0)
    ∧ (∀ (clade : String) (n : ℤ) (t : Table)
        (chrom posStr nAllStr nChrStr : String) (cells : List String) (P : ℤ),
        pyInt posStr = some P → pyInt nAllStr = none →
        processRow frqHeader clade n t
            ([chrom, posStr, nAllStr, nChrStr] ++ cells)
          = Except.error PyExn.valueError)
    ∧ (∀ (clade : String) (n : ℤ) (t : Table)
        (chrom posStr nChrStr cell : String) (P C : ℤ) (aCs fCs : List Char),
        pyInt posStr = some P → pyInt nChrStr = some C →
        splitOnChar ':' cell.toList = [aCs, fCs] →
        pyFloat (String.mk fCs) = none →
        processRow frqHeader clade n t [chrom, posStr, "1", nChrStr, cell]
          = Except.error PyExn.valueError)
    ∧ (∀ (clade : String) (t : Table)
        (chrom posStr nAllStr nChrStr : String) (cells : List String)
        (P A C : ℤ) (m : FreqMap),
        pyInt posStr = some P → pyInt nAllStr = some A →
        pyInt nChrStr = some C →
        readAlleles ([chrom, posStr, nAllStr, nChrStr] ++ cells) 4 A.toNat
          = Except.ok m →
        processRow frqHeader clade 0 t
            ([chrom, posStr, nAllStr, nChrStr] ++ cells)
          = Except.error PyExn.zeroDivisionError)
    ∧ (∀ (f : FrqFile) (n : ℤ), f.rows = [] →
        process_files [(f, n)] = Except.ok []) :=
  ⟨fun fl t h => process_files_go_no_zero fl [] t h,
   badNAlleles_valueError,
   badFreq_valueError,
   zeroCount_zeroDivisionError,
   headerOnly_zero_ok⟩

/-- Closed instance of `process_files_error_modes`, exercising every
conjunct at concrete inputs. -/
theorem process_files_error_modes_witness :
    ((5:ℤ) ≠ 0)
    ∧ processRow frqHeader "A" 5 [] ["1", "100", "x", "10", "A:1"]
      = Except.error PyExn.valueError
    ∧ processRow frqHeader "A" 5 [] ["1", "100", "1", "10", "A:abc"]
      = Except.error PyExn.valueError
    ∧ processRow frqHeader "A" 0 [] ["1", "100", "1", "10", "A:1"]
      = Except.error PyExn.zeroDivisionError
    ∧ process_files
        [({ path := "A.frq", header := frqHeader, rows := [] }, 0)]
      = Except.ok [] :=
  ⟨process_files_error_modes.1
      [({ path := "A.frq", header := frqHeader,
          rows := [["1", "100", "1", "10", "A:1"]] }, 5)]
      [(("1", 100), [("A", (1, [("A", PFloat.val 1)]))])] (by decide)
      ({ path := "A.frq", header := frqHeader,
         rows := [["1", "100", "1", "10", "A:1"]] }, 5)
      (List.mem_singleton.mpr rfl) (by decide),
   process_files_error_modes.2.1 "A" 5 [] "1" "100" "x" "10" ["A:1"] 100
      (by decide) (by decide),
   process_files_error_modes.2.2.1 "A" 5 [] "1" "100" "10" "A:abc" 100 10
      ['A'] ['a', 'b', 'c'] (by decide) (by decide) (by decide) (by decide),
   process_files_error_modes.2.2.2.1 "A" [] "1" "100" "1" "10" ["A:1"]
      100 1 10 [("A", PFloat.val 1)] (by decide) (by decide) (by decide)
      (by decide),
   process_files_error_modes.2.2.2.2
      { path := "A.frq", header := frqHeader, rows := [] } 0 rfl⟩
